import Mathlib

/-!
# Pipelined and serial copy engines of `io_uring_mv_dir.c` and `io_uring_rsync.c`

A shallow embedding of the two transfer loops (`move_file`, regular-file branch, and
`sync_file`) together with the small part of the io_uring interface they use.

Conventions of the embedding

* `off_t` values (`insize`, `write_left`, `offset`, record offsets) are `Int`; they stay
  between `0` and the file size, so signed wrap-around is not modelled.
* `unsigned long` counters (`reads`, `writes`) are `Nat` with explicit reduction modulo
  `2 ^ 64` at every increment and decrement.
* A file is a size together with a byte map; a record buffer is a byte map of which the
  first `iov_len` bytes are meaningful.
* Everything the environment decides (which outstanding operation completes next, its
  result, whether `malloc`, `io_uring_submit`, `io_uring_wait_cqe` or `unlink` fail) is
  read from an `Answer`, one per step.
-/

namespace IoUring

/-- Queue depth, `#define QD 8`. -/
def QD : Nat := 8

/-- Block size, `#define BS (10 * 1024 * 1024)`. -/
def BS : Nat := 10 * 1024 * 1024

/-- Number of values of an `unsigned long`. -/
def ULONG : Nat := 18446744073709551616

/-- Conversion `unsigned long → int` as done by `int had_reads = reads`. -/
def to_int (n : Nat) : Int :=
  if n % 4294967296 < 2147483648 then ((n % 4294967296 : Nat) : Int)
  else ((n % 4294967296 : Nat) : Int) - 4294967296

/-- Conversion `int → unsigned long`, used when `had_reads` is compared with `reads`. -/
def to_ulong (i : Int) : Nat := (i % 18446744073709551616).toNat

/-- Content of a file: its size and its bytes (positions at or past `size` are unused). -/
structure File where
  size : Nat
  byte : Nat → Nat

/-- The bytes of a file as a list. -/
def File.content (f : File) : List Nat := (List.range f.size).map f.byte

/-- The file as `open(..., O_TRUNC)` leaves it. -/
def File.truncated : File := { size := 0, byte := fun _ => 0 }

/-- Kernel side of `writev` of `n` bytes of `buf` at offset `off`; a hole left before
`off` keeps the bytes of the map (zero after a truncation). -/
def File.pwrite (f : File) (off n : Nat) (buf : Nat → Nat) : File :=
  { size := if n = 0 then f.size else max f.size (off + n),
    byte := fun i => if off ≤ i ∧ i < off + n then buf (i - off) else f.byte i }

/-- Source `struct io_data`, followed in memory by its buffer (`data + 1`). -/
structure io_data where
  read : Bool
  first_offset : Int
  offset : Int
  first_len : Nat
  iov_len : Nat
  buf : Nat → Nat

/-- Answers of the environment consulted during one step. -/
structure Answer where
  /-- whether `malloc` returns a block -/
  malloc_ok : Bool
  /-- the bytes found in a freshly allocated block -/
  junk : Nat → Nat
  /-- return value of `io_uring_submit` when it fails (negative), ignored otherwise -/
  submit_ret : Int
  /-- return value of `io_uring_wait_cqe` -/
  wait_ret : Int
  /-- which outstanding operation the next completion belongs to -/
  pick : Nat
  /-- `cqe->res` of that completion -/
  res : Int
  /-- return value of `unlink` -/
  unlink_ret : Int

/-- An environment in which nothing fails; `pick` and `res` are to be overridden. -/
def Answer.calm : Answer :=
  { malloc_ok := true, junk := fun _ => 0, submit_ret := 0, wait_ret := 0,
    pick := 0, res := 0, unlink_ret := 0 }

/-- Observable actions of a transfer, in program order. -/
inductive Event where
  /-- `io_uring_prep_readv(sqe, infd, iov, 1, offset)` with `iov_len = len` -/
  | prep_read (offset : Int) (len : Nat)
  /-- `io_uring_prep_writev(sqe, outfd, iov, 1, offset)` with `iov_len = len` -/
  | prep_write (offset : Int) (len : Nat)
  /-- `io_uring_submit` returned `ret` -/
  | submit (ret : Int)
  /-- a completion delivered by `io_uring_wait_cqe`: the operation and `cqe->res` -/
  | cqe (read : Bool) (offset : Int) (len : Nat) (res : Int)
  /-- `free(data)` of the record of the chunk at `offset` -/
  | free (offset : Int)
  /-- `open(src, O_RDONLY)` succeeded -/
  | open_in
  /-- `open(dst, O_WRONLY | O_CREAT | O_TRUNC, mode)` succeeded -/
  | open_out
  | close_in
  | close_out
  | unlink
  deriving DecidableEq, Repr

/-- Control points of the regular-file branch of `move_file`. -/
inductive Pc where
  /-- at `while (insize || write_left)` -/
  | loop_head
  /-- at `while (insize)` -/
  | fill
  /-- at `if (had_reads != reads)` -/
  | flush
  /-- at `while (write_left)` -/
  | drain
  /-- `move_file` returned `code` -/
  | returned (code : Nat)
  /-- inside `io_uring_wait_cqe` with nothing outstanding: it never returns -/
  | blocked
  /-- `assert(sqe)` of `queue_prepped` failed -/
  | aborted
  deriving DecidableEq, Repr

/-- State of one transfer session of `move_file`: the two files, the ring, the locals of
`move_file`, and what an observer records. -/
structure Session where
  src : File
  dst : File
  /-- submission queue entries prepared and not yet submitted (their records) -/
  sq : List io_data
  /-- operations submitted whose completion the program has not consumed -/
  inflight : List io_data
  insize : Int
  write_left : Int
  offset : Int
  reads : Nat
  writes : Nat
  had_reads : Int
  pc : Pc
  infd_open : Bool
  outfd_open : Bool
  /-- records allocated and not freed -/
  live : Nat
  log : List Event

/-- Source `io_uring_get_sqe` on a ring of `QD` entries: is a free entry left. -/
def io_uring_get_sqe (s : Session) : Bool := s.sq.length < QD

/-- Source `io_uring_submit`: every prepared entry goes to the kernel, unless the call
fails, in which case the entries stay in the submission queue. -/
def io_uring_submit (k : Answer) (s : Session) : Int × Session :=
  if k.submit_ret < 0 then
    (k.submit_ret, { s with log := s.log ++ [Event.submit k.submit_ret] })
  else
    ((s.sq.length : Int),
      { s with inflight := s.inflight ++ s.sq, sq := [],
               log := s.log ++ [Event.submit (s.sq.length : Int)] })

/-- Source `queue_read`: `none` stands for the return value 1. -/
def queue_read (k : Answer) (s : Session) (size : Int) (offset : Int) : Option Session :=
  if !k.malloc_ok then none
  else if !io_uring_get_sqe s then none
  else
    let data : io_data :=
      { read := true, first_offset := offset, offset := offset,
        first_len := to_ulong size, iov_len := to_ulong size, buf := k.junk }
    some { s with sq := s.sq ++ [data], live := s.live + 1,
                  log := s.log ++ [Event.prep_read offset (to_ulong size)] }

/-- Source `queue_prepped`: `none` stands for the failed `assert(sqe)`. -/
def queue_prepped (s : Session) (data : io_data) : Option Session :=
  if !io_uring_get_sqe s then none
  else if data.read then
    some { s with sq := s.sq ++ [data],
                  log := s.log ++ [Event.prep_read data.offset data.iov_len] }
  else
    some { s with sq := s.sq ++ [data],
                  log := s.log ++ [Event.prep_write data.offset data.iov_len] }

/-- Source `queue_write`; the return value of its `io_uring_submit` is dropped. -/
def queue_write (k : Answer) (s : Session) (data : io_data) : Option (io_data × Session) :=
  let data1 : io_data :=
    { data with read := false, offset := data.first_offset, iov_len := data.first_len }
  match queue_prepped s data1 with
  | none => none
  | some s1 => some (data1, (io_uring_submit k s1).2)

/-- What the kernel did for the operation of record `r` when it reports `res`: a read
stores the first `res` bytes of the range into the buffer, a write stores the first
`res` bytes of the buffer into the destination. Results are capped by the request. -/
def kernel_effect (r : io_data) (res : Int) (s : Session) : io_data × Session :=
  if res < 0 then (r, s)
  else if r.read then
    ({ r with buf := fun j =>
        if j < min res.toNat r.iov_len then s.src.byte (r.offset.toNat + j) else r.buf j }, s)
  else
    (r, { s with dst := s.dst.pwrite r.offset.toNat (min res.toNat r.iov_len) r.buf })

/-- Outcome of `io_uring_wait_cqe`: it never returns, or fails, or hands over a
completion: the position of the operation on the ring, its record and `cqe->res`. -/
inductive Wait where
  | block
  | error (ret : Int)
  | cqe (idx : Nat) (data : io_data) (res : Int) (s : Session)

/-- Source `io_uring_wait_cqe`: fails, or never returns when nothing is outstanding, or
hands over the completion of one outstanding operation, chosen by the environment.
The entry stays on the ring until `io_uring_cqe_seen`. -/
def io_uring_wait_cqe (k : Answer) (s : Session) : Wait :=
  if k.wait_ret < 0 then Wait.error k.wait_ret
  else
    match s.inflight.get? (k.pick % s.inflight.length) with
    | none => Wait.block
    | some r =>
      let (r1, s1) := kernel_effect r k.res s
      Wait.cqe (k.pick % s.inflight.length) r1 k.res
        { s1 with log := s1.log ++ [Event.cqe r.read r.offset r.iov_len k.res] }

/-- Source `io_uring_cqe_seen`: the completion at position `idx` leaves the ring. -/
def io_uring_cqe_seen (idx : Nat) (s : Session) : Session :=
  { s with inflight := s.inflight.take idx ++ s.inflight.drop (idx + 1) }

/-- The `close(infd); close(outfd);` pair. -/
def close_both (s : Session) : Session :=
  { s with infd_open := false, outfd_open := false,
           log := s.log ++ [Event.close_in, Event.close_out] }

/-- One step of the regular-file branch of `move_file`, from line 163 to the return. -/
def step (k : Answer) (s : Session) : Session :=
  match s.pc with
  | Pc.loop_head =>
    if s.insize ≠ 0 ∨ s.write_left ≠ 0 then
      { s with had_reads := to_int s.reads, pc := Pc.fill }
    else
      let s1 := close_both s
      let s2 := { s1 with log := s1.log ++ [Event.unlink] }
      if k.unlink_ret < 0 then { s2 with pc := Pc.returned 1 }
      else { s2 with pc := Pc.returned 0 }
  | Pc.fill =>
    if s.insize ≠ 0 then
      let this_size : Int := if s.insize > (BS : Int) then (BS : Int) else s.insize
      if (s.reads + s.writes) % ULONG ≥ QD then { s with pc := Pc.flush }
      else
        match queue_read k s this_size s.offset with
        | none => { s with pc := Pc.flush }
        | some s1 =>
          { s1 with insize := s1.insize - this_size, offset := s1.offset + this_size,
                    reads := (s1.reads + 1) % ULONG }
    else { s with pc := Pc.flush }
  | Pc.flush =>
    if to_ulong s.had_reads ≠ s.reads then
      let r := io_uring_submit k s
      if r.1 < 0 then { close_both r.2 with pc := Pc.returned 1 }
      else { r.2 with pc := Pc.drain }
    else { s with pc := Pc.drain }
  | Pc.drain =>
    if s.write_left ≠ 0 then
      match io_uring_wait_cqe k s with
      | Wait.block => { s with pc := Pc.blocked }
      | Wait.error _ => { close_both s with pc := Pc.returned 1 }
      | Wait.cqe idx data res s1 =>
        if res < 0 then { close_both s1 with pc := Pc.returned 1 }
        else if data.read then
          match queue_write k s1 data with
          | none => { s1 with pc := Pc.aborted }
          | some (data1, s2) =>
            io_uring_cqe_seen idx
              { s2 with write_left := s2.write_left - (data1.first_len : Int),
                        reads := (s2.reads + ULONG - 1) % ULONG,
                        writes := (s2.writes + 1) % ULONG }
        else
          io_uring_cqe_seen idx
            { s1 with live := s1.live - 1,
                      writes := (s1.writes + ULONG - 1) % ULONG,
                      log := s1.log ++ [Event.free data.offset] }
    else { s with pc := Pc.loop_head }
  | _ => s

/-- The session as `move_file` enters its loop: both files open, the destination
truncated, `insize` read from the source, nothing outstanding on the ring. -/
def start (src : File) : Session :=
  { src := src, dst := File.truncated, sq := [], inflight := [],
    insize := (src.size : Int), write_left := (src.size : Int), offset := 0,
    reads := 0, writes := 0, had_reads := 0, pc := Pc.loop_head,
    infd_open := true, outfd_open := true, live := 0, log := [] }

/-- Run the session against a list of answers, one per step. -/
def run (ks : List Answer) (s : Session) : Session := ks.foldl (fun s k => step k s) s

/-! ## The transitions of `step`, one constructor per path through the loop body -/

/-- The buffer of record `r` after the kernel read `res` bytes into it. -/
def filled (src : File) (r : io_data) (res : Int) : io_data :=
  { r with buf := fun j =>
      if j < min res.toNat r.iov_len then src.byte (r.offset.toNat + j) else r.buf j }

/-- The record as `queue_write` re-arms it. -/
def rearmed (r : io_data) : io_data :=
  { r with read := false, offset := r.first_offset, iov_len := r.first_len }

/-- Transitions of the session; `Step k s t` says that `step k s` took the named path and
ended in `t`. -/
inductive Step (k : Answer) (s : Session) : Session → Prop
  | halt (h : s.pc ≠ Pc.loop_head ∧ s.pc ≠ Pc.fill ∧ s.pc ≠ Pc.flush ∧ s.pc ≠ Pc.drain) :
      Step k s s
  | enter (h : s.pc = Pc.loop_head) (hne : s.insize ≠ 0 ∨ s.write_left ≠ 0) :
      Step k s { s with had_reads := to_int s.reads, pc := Pc.fill }
  | leave (c : Nat) (h : s.pc = Pc.loop_head) (h1 : s.insize = 0) (h2 : s.write_left = 0)
      (hc : c = if k.unlink_ret < 0 then 1 else 0) :
      Step k s { s with infd_open := false, outfd_open := false,
                        log := s.log ++ [Event.close_in, Event.close_out] ++ [Event.unlink],
                        pc := Pc.returned c }
  | fill_stop (h : s.pc = Pc.fill)
      (hwhy : s.insize = 0 ∨ QD ≤ (s.reads + s.writes) % ULONG ∨ k.malloc_ok = false
        ∨ QD ≤ s.sq.length) :
      Step k s { s with pc := Pc.flush }
  | fill_read (h : s.pc = Pc.fill) (hne : s.insize ≠ 0)
      (hq : (s.reads + s.writes) % ULONG < QD) (hsq : s.sq.length < QD)
      (this_size : Int) (hts : this_size = if s.insize > (BS : Int) then (BS : Int) else s.insize) :
      Step k s { s with
        sq := s.sq ++ [{ read := true, first_offset := s.offset, offset := s.offset,
                         first_len := to_ulong this_size, iov_len := to_ulong this_size,
                         buf := k.junk }],
        live := s.live + 1,
        log := s.log ++ [Event.prep_read s.offset (to_ulong this_size)],
        insize := s.insize - this_size, offset := s.offset + this_size,
        reads := (s.reads + 1) % ULONG }
  | flush_none (h : s.pc = Pc.flush) (he : to_ulong s.had_reads = s.reads) :
      Step k s { s with pc := Pc.drain }
  | flush_ok (h : s.pc = Pc.flush) (he : to_ulong s.had_reads ≠ s.reads)
      (hk : 0 ≤ k.submit_ret) :
      Step k s { s with inflight := s.inflight ++ s.sq, sq := [],
                        log := s.log ++ [Event.submit (s.sq.length : Int)], pc := Pc.drain }
  | flush_fail (h : s.pc = Pc.flush) (he : to_ulong s.had_reads ≠ s.reads)
      (hk : k.submit_ret < 0) :
      Step k s { s with infd_open := false, outfd_open := false,
                        log := s.log ++ [Event.submit k.submit_ret]
                                 ++ [Event.close_in, Event.close_out],
                        pc := Pc.returned 1 }
  | drain_done (h : s.pc = Pc.drain) (h0 : s.write_left = 0) :
      Step k s { s with pc := Pc.loop_head }
  | drain_block (h : s.pc = Pc.drain) (h0 : s.write_left ≠ 0) (hw : 0 ≤ k.wait_ret)
      (he : s.inflight = []) :
      Step k s { s with pc := Pc.blocked }
  | drain_wait_fail (h : s.pc = Pc.drain) (h0 : s.write_left ≠ 0) (hw : k.wait_ret < 0) :
      Step k s { s with infd_open := false, outfd_open := false,
                        log := s.log ++ [Event.close_in, Event.close_out],
                        pc := Pc.returned 1 }
  | drain_neg (h : s.pc = Pc.drain) (h0 : s.write_left ≠ 0) (hw : 0 ≤ k.wait_ret)
      (r : io_data) (hr : r ∈ s.inflight)
      (hp : s.inflight.get? (k.pick % s.inflight.length) = some r) (hres : k.res < 0) :
      Step k s { s with infd_open := false, outfd_open := false,
                        log := s.log ++ [Event.cqe r.read r.offset r.iov_len k.res]
                                 ++ [Event.close_in, Event.close_out],
                        pc := Pc.returned 1 }
  | drain_abort (h : s.pc = Pc.drain) (h0 : s.write_left ≠ 0) (hw : 0 ≤ k.wait_ret)
      (l1 l2 : List io_data) (r : io_data) (hr : s.inflight = l1 ++ r :: l2)
      (hp : s.inflight.get? (k.pick % s.inflight.length) = some r)
      (hres : 0 ≤ k.res) (hread : r.read = true) (hsq : QD ≤ s.sq.length) :
      Step k s { s with log := s.log ++ [Event.cqe r.read r.offset r.iov_len k.res],
                        pc := Pc.aborted }
  | drain_read (h : s.pc = Pc.drain) (h0 : s.write_left ≠ 0) (hw : 0 ≤ k.wait_ret)
      (l1 l2 : List io_data) (r : io_data) (hr : s.inflight = l1 ++ r :: l2)
      (hp : s.inflight.get? (k.pick % s.inflight.length) = some r)
      (hres : 0 ≤ k.res) (hread : r.read = true) (hsq : s.sq.length < QD)
      (hk : 0 ≤ k.submit_ret) :
      Step k s { s with
        inflight := (l1 ++ l2) ++ (s.sq ++ [rearmed (filled s.src r k.res)]), sq := [],
        log := s.log ++ [Event.cqe r.read r.offset r.iov_len k.res]
                 ++ [Event.prep_write r.first_offset r.first_len]
                 ++ [Event.submit ((s.sq.length + 1 : Nat) : Int)],
        write_left := s.write_left - (r.first_len : Int),
        reads := (s.reads + ULONG - 1) % ULONG,
        writes := (s.writes + 1) % ULONG }
  | drain_read_unsent (h : s.pc = Pc.drain) (h0 : s.write_left ≠ 0) (hw : 0 ≤ k.wait_ret)
      (l1 l2 : List io_data) (r : io_data) (hr : s.inflight = l1 ++ r :: l2)
      (hp : s.inflight.get? (k.pick % s.inflight.length) = some r)
      (hres : 0 ≤ k.res) (hread : r.read = true) (hsq : s.sq.length < QD)
      (hk : k.submit_ret < 0) :
      Step k s { s with
        inflight := l1 ++ l2, sq := s.sq ++ [rearmed (filled s.src r k.res)],
        log := s.log ++ [Event.cqe r.read r.offset r.iov_len k.res]
                 ++ [Event.prep_write r.first_offset r.first_len]
                 ++ [Event.submit k.submit_ret],
        write_left := s.write_left - (r.first_len : Int),
        reads := (s.reads + ULONG - 1) % ULONG,
        writes := (s.writes + 1) % ULONG }
  | drain_write (h : s.pc = Pc.drain) (h0 : s.write_left ≠ 0) (hw : 0 ≤ k.wait_ret)
      (l1 l2 : List io_data) (r : io_data) (hr : s.inflight = l1 ++ r :: l2)
      (hp : s.inflight.get? (k.pick % s.inflight.length) = some r)
      (hres : 0 ≤ k.res) (hread : r.read = false) :
      Step k s { s with
        inflight := l1 ++ l2,
        dst := s.dst.pwrite r.offset.toNat (min k.res.toNat r.iov_len) r.buf,
        log := s.log ++ [Event.cqe r.read r.offset r.iov_len k.res] ++ [Event.free r.offset],
        live := s.live - 1,
        writes := (s.writes + ULONG - 1) % ULONG }

/-! ## The serial loop of `sync_file` (`io_uring_rsync.c`) -/

/-- A file as `stat` sees it: content and modification time. -/
structure Node where
  file : File
  mtime : Int

/-- Answers of the environment to the calls `sync_file` makes before its loop. -/
structure Opening where
  /-- `open(src, O_RDONLY)` succeeds -/
  open_in_ok : Bool
  /-- `open(dst, O_WRONLY | O_CREAT | O_TRUNC, mode)` succeeds -/
  open_out_ok : Bool
  /-- `get_file_size` succeeds (the source is a regular file) -/
  size_ok : Bool

/-- The error exits of the loop of `sync_file` after the record was allocated:
`free(data); close(infd); close(outfd); return 1;`. -/
def sync_bail (offset : Int) (s : Session) : Session :=
  { close_both { s with live := s.live - 1, log := s.log ++ [Event.free offset] } with
    pc := Pc.returned 1 }

/-- An entry of the submission queue filled by `io_uring_prep_readv` or
`io_uring_prep_writev` and tagged with the record. -/
def sync_prep (data : io_data) (e : Event) (s : Session) : Session :=
  { s with sq := s.sq ++ [data], log := s.log ++ [e] }

/-- End of the loop body of `sync_file` (lines 222 to 247): the wait for the completion
of the write, and the update of `offset` and `write_left`. -/
def sync_write_done (k : Answer) (this_size : Int) (data : io_data) (s : Session) : Session :=
  match io_uring_wait_cqe k s with
  | Wait.block => { s with pc := Pc.blocked }
  | Wait.error _ => sync_bail data.offset s
  | Wait.cqe idx _ res s2 =>
    if res < 0 then sync_bail data.offset (io_uring_cqe_seen idx s2)
    else
      let s3 := io_uring_cqe_seen idx s2
      { s3 with offset := s3.offset + this_size,
                write_left := s3.write_left - this_size,
                live := s3.live - 1,
                log := s3.log ++ [Event.free data.offset] }

/-- Second half of the loop body of `sync_file` (lines 197 to 220): the write of the
chunk held by `data` is prepared at `offset` and submitted. -/
def sync_write (k : Answer) (this_size : Int) (data : io_data) (s : Session) : Session :=
  if !io_uring_get_sqe s then sync_bail data.offset s
  else
    let data1 : io_data := { data with read := false }
    let r := io_uring_submit k (sync_prep data1 (Event.prep_write s.offset data1.iov_len) s)
    if r.1 < 0 then sync_bail data.offset r.2
    else sync_write_done k this_size data r.2

/-- Middle of the loop body of `sync_file` (lines 175 to 195): the wait for the
completion of the read. The completion the program waits for is taken to be that of
its own operation when the environment picks the entry submitted last; otherwise the
buffer of `data` is still as `malloc` left it. -/
def sync_read_done (k1 k2 : Answer) (this_size : Int) (data : io_data) (s : Session) :
    Session :=
  match io_uring_wait_cqe k1 s with
  | Wait.block => { s with pc := Pc.blocked }
  | Wait.error _ => sync_bail data.offset s
  | Wait.cqe idx got res s2 =>
    if res < 0 then sync_bail data.offset (io_uring_cqe_seen idx s2)
    else
      let own : Bool := idx + 1 = s.inflight.length
      sync_write k2 this_size (if own then got else data) (io_uring_cqe_seen idx s2)

/-- Loop body of `sync_file` (lines 137 to 247) for one chunk; `k1` answers the calls of
the read half and `k2` those of the write half. -/
def sync_chunk (k1 k2 : Answer) (s : Session) : Session :=
  let this_size : Int := if s.write_left > (BS : Int) then (BS : Int) else s.write_left
  if !k1.malloc_ok then { close_both s with pc := Pc.returned 1 }
  else
    let s0 := { s with live := s.live + 1 }
    if !io_uring_get_sqe s0 then sync_bail s.offset s0
    else
      let data : io_data :=
        { read := true, first_offset := 0, offset := s.offset, first_len := 0,
          iov_len := to_ulong this_size, buf := k1.junk }
      let r := io_uring_submit k1 (sync_prep data (Event.prep_read s.offset data.iov_len) s0)
      if r.1 < 0 then sync_bail data.offset r.2
      else sync_read_done k1 k2 this_size data r.2

/-- One turn of `while (write_left > 0)` of `sync_file`, or the exit of the loop. -/
def sync_step (k : Answer × Answer) (s : Session) : Session :=
  match s.pc with
  | Pc.loop_head =>
    if s.write_left > 0 then sync_chunk k.1 k.2 s
    else { close_both s with pc := Pc.returned 0 }
  | _ => s

/-- The loop of `sync_file` run against a list of answers, one pair per turn. -/
def sync_run (ks : List (Answer × Answer)) (s : Session) : Session :=
  ks.foldl (fun s k => sync_step k s) s

/-- The test `dst_exists && src_stat.st_size == dst_stat.st_size &&
src_stat.st_mtime <= dst_stat.st_mtime` of `sync_file`. -/
def up_to_date (sn : Node) (dst : Option Node) : Bool :=
  match dst with
  | none => false
  | some dn => decide ((sn.file.size : Int) = (dn.file.size : Int)) && decide (sn.mtime ≤ dn.mtime)

/-- What a call of `sync_file` leaves behind. -/
structure Outcome where
  /-- the return value; `none` when the answers ran out before the return -/
  ret : Option Nat
  /-- the destination file afterwards, `none` when there is none -/
  dst : Option File
  log : List Event
  /-- operations still on the ring -/
  outstanding : Nat
  /-- records allocated and not freed -/
  live : Nat

/-- The return value a control point stands for. -/
def Pc.code : Pc → Option Nat
  | Pc.returned c => some c
  | _ => none

/-- Source `sync_file`, for a source and a destination given as what `stat` finds
(`none` when `stat` fails), on a ring with nothing outstanding. -/
def sync_file (o : Opening) (ks : List (Answer × Answer)) (src dst : Option Node) : Outcome :=
  match src with
  | none => { ret := some 1, dst := dst.map Node.file, log := [], outstanding := 0, live := 0 }
  | some sn =>
    if up_to_date sn dst then
      { ret := some 0, dst := dst.map Node.file, log := [], outstanding := 0, live := 0 }
    else if !o.open_in_ok then
      { ret := some 1, dst := dst.map Node.file, log := [], outstanding := 0, live := 0 }
    else if !o.open_out_ok then
      { ret := some 1, dst := dst.map Node.file, log := [Event.open_in, Event.close_in],
        outstanding := 0, live := 0 }
    else if !o.size_ok then
      { ret := some 1, dst := some File.truncated,
        log := [Event.open_in, Event.open_out, Event.close_in, Event.close_out],
        outstanding := 0, live := 0 }
    else
      let s0 : Session :=
        { start sn.file with log := [Event.open_in, Event.open_out] }
      let s := sync_run ks s0
      { ret := s.pc.code, dst := some s.dst, log := s.log,
        outstanding := s.inflight.length + s.sq.length, live := s.live }

/-! ## Vocabulary of the statements -/

/-- The records the ring holds: the submitted ones, then the prepared ones. -/
def Session.pending (s : Session) : List io_data := s.inflight ++ s.sq

/-- Total length of the chunks of a list of records that are in the Reading phase. -/
def read_bytes (l : List io_data) : Int :=
  ((l.filter (fun r => r.read)).map (fun r => (r.first_len : Int))).sum

/-- Accounting invariant of the loop of `move_file`, for a source of `N` bytes. -/
structure Accounting (N : Nat) (s : Session) : Prop where
  reads_eq : s.reads = s.pending.countP (fun r => r.read)
  writes_eq : s.writes = s.pending.countP (fun r => !r.read)
  budget : s.pending.length ≤ QD
  write_left_eq : s.write_left = s.insize + read_bytes s.pending
  size_eq : s.insize + s.offset = (N : Int)
  insize_nonneg : 0 ≤ s.insize
  src_size : s.src.size = N
  live_eq : s.live = s.pending.length

/-- The transfer loop has exited without error: `unlink` is reached only then. -/
def Session.finished (s : Session) : Prop := Event.unlink ∈ s.log

instance (s : Session) : Decidable s.finished := by
  unfold Session.finished; exact inferInstance

/-- The chunk a `prep_read` event stands for. -/
def Event.read_chunk : Event → Option (Int × Nat)
  | Event.prep_read o l => some (o, l)
  | _ => none

/-- The chunk a `prep_write` event stands for. -/
def Event.write_chunk : Event → Option (Int × Nat)
  | Event.prep_write o l => some (o, l)
  | _ => none

/-- Offsets and lengths of the reads queued so far, in order. -/
def queued_reads (log : List Event) : List (Int × Nat) := log.filterMap Event.read_chunk

/-- Offsets and lengths of the writes queued so far, in order. -/
def queued_writes (log : List Event) : List (Int × Nat) := log.filterMap Event.write_chunk

/-- Chunk number `k` of a file of `N` bytes: offset `k * BS`, length `min BS (N - k * BS)`. -/
def chunk (N k : Nat) : Int × Nat := (((k * BS : Nat) : Int), min BS (N - k * BS))

/-- The first `n` chunks of a file of `N` bytes. -/
def chunks (N n : Nat) : List (Int × Nat) := (List.range n).map (chunk N)

/-- The number of chunks of a file of `N` bytes, `ceil (N / BS)`. -/
def chunk_count (N : Nat) : Nat := (N + BS - 1) / BS

/-- An event of a run in which the kernel accepts every submission and every read and
write completes in full. -/
def Event.clean : Event → Bool
  | Event.cqe _ _ len res => decide (res = (len : Int))
  | Event.submit ret => decide (0 ≤ ret)
  | _ => true

/-- A completion that carries an error. -/
def Event.failed : Event → Bool
  | Event.cqe _ _ _ res => decide (res < 0)
  | _ => false

/-- The kernel carries out the write of record `r` in full. -/
def apply_write (f : File) (r : io_data) : File :=
  f.pwrite r.offset.toNat r.iov_len r.buf

/-- The destination once the kernel has carried out the given writes, in the given
order. -/
def settle (order : List io_data) (f : File) : File := order.foldl apply_write f

/-- Offsets and lengths of the chunks of a list of records that are in the Reading
phase. -/
def reading_chunks (l : List io_data) : List (Int × Nat) :=
  (l.filter (fun r => r.read)).map (fun r => (r.first_offset, r.first_len))

/-- The byte range of the chunk of a record contains position `i`. -/
def covers (r : io_data) (i : Nat) : Prop :=
  r.first_offset ≤ (i : Int) ∧ (i : Int) < r.first_offset + (r.first_len : Int)

/-! ## Invariants -/

/-- Once the loop has exited, both counters are zero and `move_file` has returned with
both descriptors closed. -/
def Exited (s : Session) : Prop :=
  s.finished → s.insize = 0 ∧ s.write_left = 0 ∧ (∃ c, s.pc = Pc.returned c) ∧
    s.infd_open = false ∧ s.outfd_open = false

/-- The reads queued so far are the first chunks of the file, and `offset` is where the
next one starts. -/
def Chunked (N : Nat) (s : Session) : Prop :=
  ∃ n : Nat, queued_reads s.log = chunks N n ∧ s.offset = ((min (n * BS) N : Nat) : Int) ∧
    (n = 0 ∨ (n - 1) * BS < N)


/-- Shape of the records on the ring: each is armed for its own chunk, the chunks lie
below `offset`, and every chunk read so far is either still being
read or has had its write queued. -/
structure Shape (src : File) (s : Session) : Prop where
  src_eq : s.src = src
  offset_nonneg : 0 ≤ s.offset
  wf : ∀ r ∈ s.pending, r.offset = r.first_offset ∧ r.iov_len = r.first_len ∧
    0 ≤ r.first_offset ∧ r.first_offset + (r.first_len : Int) ≤ s.offset ∧ 0 < r.first_len
  paired : (queued_writes s.log ++ reading_chunks s.pending).Perm (queued_reads s.log)


/-- What the buffers and the destination hold while every submission is accepted and
every operation completes in full: a record in the Writing phase holds the bytes of its
chunk, the destination holds the bytes of every chunk below `offset` that is no longer
on the ring, and nothing stays behind in the submission queue. -/
structure Data (s : Session) : Prop where
  buf_ok : ∀ r ∈ s.pending, r.read = false →
    ∀ j, j < r.first_len → r.buf j = s.src.byte (r.first_offset.toNat + j)
  dst_ok : ∀ i : Nat, (i : Int) < s.offset → (∀ r ∈ s.pending, ¬ covers r i) →
    s.dst.byte i = s.src.byte i ∧ i < s.dst.size
  dst_size : (s.dst.size : Int) ≤ s.offset
  sq_fill : s.pc = Pc.fill ∨ s.pc = Pc.flush → s.sq.length + to_ulong s.had_reads = s.reads
  sq_empty : s.pc ≠ Pc.fill → s.pc ≠ Pc.flush → s.sq = []

/-- Every event of the log is clean. -/
def Clean (s : Session) : Prop := ∀ e ∈ s.log, e.clean = true

instance (s : Session) : Decidable (Clean s) :=
  inferInstanceAs (Decidable (∀ e ∈ s.log, e.clean = true))


/-- Everything that holds after every run of a session started on an idle ring. -/
structure Sound (src : File) (s : Session) : Prop where
  acc : Accounting src.size s
  shape : Shape src s
  exited : Exited s
  chunked : Chunked src.size s
  data : Clean s → Data s


/-- A return with a value other than 1 is a return after the loop has exited. -/
def Returned (s : Session) : Prop :=
  ∀ c, s.pc = Pc.returned c → c = 1 ∨ s.finished

/-- Once `write_left` is zero a write is on the ring, unless the source is empty. -/
def WriteLeft (N : Nat) (s : Session) : Prop :=
  0 < N → s.write_left = 0 → 1 ≤ s.writes

/-- Reads are queued in the first turn of the outer loop only. -/
structure FirstTurn (s : Session) : Prop where
  bound : s.offset ≤ ((QD * BS : Nat) : Int)
  head : s.pc = Pc.loop_head →
    (s.writes = 0 ∧ s.offset ≤ ((s.reads * BS : Nat) : Int)) ∨ (s.insize = 0 ∧ s.write_left = 0)
  filling : s.pc = Pc.fill ∨ s.pc = Pc.flush →
    s.writes = 0 ∧ s.offset ≤ ((s.reads * BS : Nat) : Int)


/-- After a completion that carries an error nothing happens but the two `close`
calls and the return of 1. -/
def Aborted (s : Session) : Prop :=
  (∃ e ∈ s.log, e.failed = true) →
    s.pc = Pc.returned 1 ∧ s.infd_open = false ∧ s.outfd_open = false ∧
    Event.unlink ∉ s.log ∧
    ∃ pre e, e.failed = true ∧ (∀ x ∈ pre, x.failed = false) ∧
      s.log = pre ++ [e, Event.close_in, Event.close_out]


/-- Every write queued follows, in the log, a completion without error of the read of the
same chunk. -/
def ReadFirst (s : Session) : Prop :=
  ∀ pre post o l, s.log = pre ++ Event.prep_write o l :: post →
    ∃ res, 0 ≤ res ∧ Event.cqe true o l res ∈ pre


/-- Effect of handling the completion of record `r` with a non-negative result, from
state `s` to state `t`. -/
def Handled (k : Answer) (r : io_data) (s t : Session) : Prop :=
  (r.read = true →
    t.reads + 1 = s.reads ∧ t.writes = s.writes + 1 ∧
    t.write_left = s.write_left - (r.iov_len : Int) ∧
    t.insize = s.insize ∧ t.offset = s.offset ∧ t.live = s.live ∧ t.pc = Pc.drain ∧
    (∃ ret, t.log = s.log ++ [Event.cqe true r.offset r.iov_len k.res,
      Event.prep_write r.offset r.iov_len, Event.submit ret]) ∧
    (∃ w ∈ t.pending, w.read = false ∧ w.offset = r.offset ∧ w.iov_len = r.iov_len) ∧
    t.pending.length = s.pending.length) ∧
  (r.read = false →
    t.writes + 1 = s.writes ∧ t.reads = s.reads ∧ t.write_left = s.write_left ∧
    t.insize = s.insize ∧ t.offset = s.offset ∧ t.live + 1 = s.live ∧ t.pc = Pc.drain ∧
    t.log = s.log ++ [Event.cqe false r.offset r.iov_len k.res, Event.free r.offset] ∧
    t.pending.length + 1 = s.pending.length)


/-- An answer of an environment in which no call fails and no completion carries an
error; the completion may be short. -/
def Benign (k : Answer) : Prop :=
  k.malloc_ok = true ∧ 0 ≤ k.submit_ret ∧ 0 ≤ k.wait_ret ∧ 0 ≤ k.res

instance (k : Answer) : Decidable (Benign k) := by
  unfold Benign; exact inferInstance

/-- An upper bound on the number of steps left before the session stops, while the
environment is benign and the source has at most `QD * BS` bytes. -/
def fuel (s : Session) : Nat :=
  match s.pc with
  | Pc.loop_head =>
    if s.insize = 0 ∧ s.write_left = 0 then 1
    else 5 + 3 * ((s.insize.toNat + BS - 1) / BS) + 2 * s.reads + s.writes
  | Pc.fill => 4 + 3 * ((s.insize.toNat + BS - 1) / BS) + 2 * s.reads + s.writes
  | Pc.flush => 3 + 3 * ((s.insize.toNat + BS - 1) / BS) + 2 * s.reads + s.writes
  | Pc.drain => 2 + 3 * ((s.insize.toNat + BS - 1) / BS) + 2 * s.reads + s.writes
  | _ => 0

/-- What holds along a session on a source of at most `QD * BS` bytes while the
environment is benign: all reads are queued in the first turn and submitted at once,
nothing is left to read when completions are awaited, the wait never finds the ring
empty, and a return is a return after the loop. -/
structure Progress (s : Session) : Prop where
  sq_fill : s.pc = Pc.fill ∨ s.pc = Pc.flush → s.sq.length + to_ulong s.had_reads = s.reads
  sq_empty : s.pc ≠ Pc.fill → s.pc ≠ Pc.flush → s.sq = []
  first : s.pc = Pc.fill ∨ s.pc = Pc.flush →
    s.writes = 0 ∧ (queued_reads s.log).length = s.reads
  head : s.pc = Pc.loop_head →
    (s.writes = 0 ∧ (queued_reads s.log).length = s.reads) ∨
      (s.insize = 0 ∧ s.write_left = 0)
  filled_up : s.pc = Pc.flush ∨ s.pc = Pc.drain → s.insize = 0
  alive : s.pc ≠ Pc.blocked ∧ s.pc ≠ Pc.aborted
  fin : ∀ c, s.pc = Pc.returned c → s.finished


/-! ## Concrete sessions -/

/-- An answer of an environment in which nothing fails, delivering the completion of
outstanding operation `pick` with result `res`. -/
def Answer.deliver (pick : Nat) (res : Int) : Answer :=
  { Answer.calm with pick := pick, res := res }

/-- A source of 25 MiB. -/
def file25 : File := { size := 26214400, byte := fun i => i % 251 }

/-- Answers under which the three chunks of `file25` are read in the order 2, 1, 0 and
the write of chunk 2 completes before the loop exits. -/
def answers25 : List Answer :=
  List.replicate 6 Answer.calm ++
    [Answer.deliver 2 5242880, Answer.deliver 2 5242880, Answer.deliver 1 10485760,
     Answer.deliver 0 10485760, Answer.calm, Answer.calm]


/-- A source of one byte. -/
def file1 : File := { size := 1, byte := fun _ => 65 }

/-- Answers under which the single chunk of `file1` is read in full and the loop exits. -/
def answers1 : List Answer :=
  List.replicate 4 Answer.calm ++ [Answer.deliver 0 1, Answer.calm, Answer.calm]

/-- A source of `QD * BS + 1` bytes. -/
def file81 : File := { size := 83886081, byte := fun i => i % 251 }

/-- Answers under which the eight chunks queued for `file81` are read and written in
full, in the order of their offsets. -/
def answers81 : List Answer :=
  List.replicate 11 Answer.calm ++ List.replicate 16 (Answer.deliver 0 10485760)
    ++ [Answer.calm]


/-- A source of one byte whose read fails with `-5`. -/
def answers_eio : List Answer :=
  List.replicate 4 Answer.calm ++ [Answer.deliver 0 (-5), Answer.calm, Answer.calm]


/-- The record of the last chunk of `file25` while its read is outstanding. -/
def last_read25 : io_data :=
  { read := true, first_offset := 20971520, offset := 20971520, first_len := 5242880,
    iov_len := 5242880, buf := fun _ => 0 }


/-- All the calls before the loop of `sync_file` succeed. -/
def Opening.fine : Opening := { open_in_ok := true, open_out_ok := true, size_ok := true }

/-- A file of one byte other than that of `file1`. -/
def other1 : File := { size := 1, byte := fun _ => 66 }

/-- Answers under which the three chunks of `file25` are read and written in full by
`sync_file`. -/
def sync_answers25 : List (Answer × Answer) :=
  [(Answer.deliver 0 10485760, Answer.deliver 0 10485760),
   (Answer.deliver 0 10485760, Answer.deliver 0 10485760),
   (Answer.deliver 0 5242880, Answer.deliver 0 5242880),
   (Answer.calm, Answer.calm)]


/-! ## Invariant of the loop of `sync_file` -/

/-- The events of one turn of the loop of `sync_file` for the chunk `c`: the read is
queued, submitted and awaited, then the write, then the record is freed. -/
def turn_events (c : Int × Nat) : List Event :=
  [Event.prep_read c.1 c.2, Event.submit 1, Event.cqe true c.1 c.2 (c.2 : Nat),
   Event.prep_write c.1 c.2, Event.submit 1, Event.cqe false c.1 c.2 (c.2 : Nat),
   Event.free c.1]

/-- The log of `sync_file` after the first `n` chunks. -/
def sync_log (N n : Nat) : List Event :=
  [Event.open_in, Event.open_out] ++ ((chunks N n).map turn_events).flatten

/-- State of `sync_file` at the head of its loop after `n` chunks: the ring is idle, no
record is allocated, and the destination is the first `min (n * BS) N` bytes of the
source. -/
structure Synced (src : File) (n : Nat) (s : Session) : Prop where
  at_head : s.pc = Pc.loop_head
  idle : s.inflight = [] ∧ s.sq = []
  src_eq : s.src = src
  offset_eq : s.offset = ((min (n * BS) src.size : Nat) : Int)
  left_eq : s.write_left = (src.size : Int) - s.offset
  live_eq : s.live = 0
  size_eq : s.dst.size = min (n * BS) src.size
  bytes : ∀ i, i < s.dst.size → s.dst.byte i = src.byte i
  log_eq : s.log = sync_log src.size n
  in_range : n = 0 ∨ (n - 1) * BS < src.size

/-- What `sync_file` leaves when its loop has gone through the whole source. -/
structure SyncDone (src : File) (t : Session) : Prop where
  ret : t.pc = Pc.returned 0
  size_eq : t.dst.size = src.size
  bytes : ∀ i, i < src.size → t.dst.byte i = src.byte i
  log_eq : t.log = sync_log src.size (chunk_count src.size) ++ [Event.close_in, Event.close_out]
  idle : t.inflight = [] ∧ t.sq = []
  live_eq : t.live = 0


/-! ## `step` follows the transitions -/

theorem split_at_get {α : Type} (l : List α) (i : Nat) (r : α) (h : l.get? i = some r) :
    l = l.take i ++ r :: l.drop (i + 1) := by
  induction l generalizing i with
  | nil => simp at h
  | cons a t ih =>
    cases i with
    | zero => simp at h; simp [h]
    | succ n => simp at h; simp; exact ih n (by simpa using h)

theorem get_none_nil {α : Type} (l : List α) (p : Nat) (h : l.get? (p % l.length) = none) :
    l = [] := by
  cases l with
  | nil => rfl
  | cons a t =>
    exfalso
    have hlt : p % (a :: t).length < (a :: t).length := Nat.mod_lt _ (by simp)
    rw [List.get?_eq_none] at h
    omega

theorem take_drop_append {α : Type} (l m : List α) (i : Nat) (h : i < l.length) :
    (l ++ m).take i ++ (l ++ m).drop (i + 1) = (l.take i ++ l.drop (i + 1)) ++ m := by
  rw [List.take_append_of_le_length (by omega), List.drop_append_of_le_length (by omega),
    List.append_assoc]

theorem step_spec (k : Answer) (s : Session) : Step k s (step k s) := by
  unfold step
  split
  · -- loop_head
    rename_i hpc
    split
    · exact Step.enter hpc (by assumption)
    · rename_i hz
      simp only [not_or, not_not] at hz
      split
      · exact Step.leave 1 hpc hz.1 hz.2 (by simp [*])
      · exact Step.leave 0 hpc hz.1 hz.2 (by simp [*])
  · -- fill
    rename_i hpc
    by_cases hne : s.insize ≠ 0
    · rw [if_pos hne]
      dsimp only
      by_cases hq : (s.reads + s.writes) % ULONG ≥ QD
      · rw [if_pos hq]
        exact Step.fill_stop hpc (Or.inr (Or.inl hq))
      · rw [if_neg hq]
        unfold queue_read io_uring_get_sqe
        by_cases hm : k.malloc_ok = true
        · by_cases hsq : s.sq.length < QD
          · simp only [hm, hsq, Bool.not_true, Bool.false_eq_true, if_false, decide_True]
            exact Step.fill_read hpc hne (by omega) hsq _ rfl
          · simp only [hm, hsq, Bool.not_true, Bool.false_eq_true, if_false, decide_False,
              Bool.not_false, if_true]
            exact Step.fill_stop hpc (Or.inr (Or.inr (Or.inr (by omega))))
        · simp only [hm, Bool.not_false, if_true]
          exact Step.fill_stop hpc (Or.inr (Or.inr (Or.inl (by simpa using hm))))
    · rw [if_neg hne]
      exact Step.fill_stop hpc (Or.inl (by simpa using hne))
  · -- flush
    rename_i hpc
    split
    · rename_i he
      unfold io_uring_submit
      by_cases hk : k.submit_ret < 0
      · simp only [hk, if_true]
        exact Step.flush_fail hpc he hk
      · simp only [hk, if_false]
        have : ¬ ((s.sq.length : Int) < 0) := by omega
        simp only [this, if_false]
        exact Step.flush_ok hpc he (by omega)
    · rename_i he
      exact Step.flush_none hpc (by simpa using he)
  · -- drain
    rename_i hpc
    split
    · rename_i h0
      unfold io_uring_wait_cqe
      by_cases hw : k.wait_ret < 0
      · simp only [hw, if_true]
        exact Step.drain_wait_fail hpc h0 hw
      · simp only [hw, if_false]
        cases hg : s.inflight.get? (k.pick % s.inflight.length) with
        | none =>
          simp only []
          exact Step.drain_block hpc h0 (by omega) (get_none_nil _ _ hg)
        | some r =>
          have hsplit := split_at_get _ _ _ hg
          have hmem : r ∈ s.inflight := List.get?_mem hg
          have hlt : k.pick % s.inflight.length < s.inflight.length := by
            rcases Nat.lt_or_ge (k.pick % s.inflight.length) s.inflight.length with h | h
            · exact h
            · rw [List.get?_eq_none.2 h] at hg; cases hg
          simp only [kernel_effect]
          by_cases hres : k.res < 0
          · simp only [hres, if_true]
            exact Step.drain_neg hpc h0 (by omega) r hmem hg hres
          · simp only [hres, if_false]
            by_cases hread : r.read = true
            · simp only [hread, if_true, queue_write, queue_prepped, io_uring_get_sqe]
              by_cases hsq : s.sq.length < QD
              · simp only [hsq, decide_True, Bool.not_true, Bool.false_eq_true, if_false, io_uring_submit]
                by_cases hk : k.submit_ret < 0
                · simp only [hk, if_true]
                  have := Step.drain_read_unsent (k := k) hpc h0 (by omega) _ _ r hsplit hg (by omega) hread hsq hk
                  simpa [rearmed, filled, hread, io_uring_cqe_seen, take_drop_append _ _ _ hlt] using this
                · simp only [hk, if_false]
                  have := Step.drain_read (k := k) hpc h0 (by omega) _ _ r hsplit hg (by omega) hread hsq (by omega)
                  simpa [rearmed, filled, hread, io_uring_cqe_seen, take_drop_append _ _ _ hlt] using this
              · simp only [hsq, decide_False, Bool.not_false, if_true]
                have := Step.drain_abort (k := k) hpc h0 (by omega) _ _ r hsplit hg (by omega) hread (by omega)
                simpa [hread] using this
            · have hread : r.read = false := by simpa using hread
              simp only [hread, Bool.false_eq_true, if_false]
              have := Step.drain_write (k := k) hpc h0 (by omega) _ _ r hsplit hg (by omega) hread
              simpa [hread, io_uring_cqe_seen] using this
    · rename_i h0
      exact Step.drain_done hpc (by simpa using h0)
  · rename_i h1 h2 h3 h4
    exact Step.halt ⟨h1, h2, h3, h4⟩

/-! ## The accounting invariant -/

theorem length_eq_countP_add (l : List io_data) :
    l.length = l.countP (fun r => r.read) + l.countP (fun r => !r.read) := by
  induction l with
  | nil => rfl
  | cons a t ih => cases h : a.read <;> simp [List.countP_cons, h] <;> omega

theorem read_bytes_append (a b : List io_data) : read_bytes (a ++ b) = read_bytes a + read_bytes b := by
  simp [read_bytes]

theorem read_bytes_cons (r : io_data) (l : List io_data) :
    read_bytes (r :: l) = (if r.read then (r.first_len : Int) else 0) + read_bytes l := by
  cases h : r.read <;> simp [read_bytes, h]

theorem read_bytes_nil : read_bytes [] = 0 := rfl

theorem accounting_start (src : File) : Accounting src.size (start src) := by
  constructor <;> simp [start, Session.pending, read_bytes]

theorem countP_split (p : io_data → Bool) (l l1 l2 : List io_data) (r : io_data)
    (h : l = l1 ++ r :: l2) :
    l.countP p = (l1 ++ l2).countP p + (if p r then 1 else 0) := by
  subst h
  simp only [List.countP_append, List.countP_cons]
  omega

theorem length_split (l l1 l2 : List io_data) (r : io_data) (h : l = l1 ++ r :: l2) :
    l.length = (l1 ++ l2).length + 1 := by
  subst h
  simp only [List.length_append, List.length_cons]
  omega

theorem read_bytes_split (l l1 l2 : List io_data) (r : io_data) (h : l = l1 ++ r :: l2) :
    read_bytes l = read_bytes (l1 ++ l2) + (if r.read then (r.first_len : Int) else 0) := by
  subst h
  simp only [read_bytes_append, read_bytes_cons]
  omega

theorem accounting_step (N : Nat) (k : Answer) (s t : Session) (hI : Accounting N s)
    (hS : Step k s t) : Accounting N t := by
  obtain ⟨h1, h2, h3, h4, h5, h6, h7, h8⟩ := hI
  have hlen := length_eq_countP_add s.pending
  simp only [Session.pending, List.countP_append, List.length_append, read_bytes_append, QD]
    at h1 h2 h3 h4 h8 hlen
  cases hS
  case fill_read hpc hne hq hsq ts hts =>
    simp only [ULONG, QD] at hq hsq
    have hts0 : 0 < ts ∧ ts ≤ 10 * 1024 * 1024 ∧ ts ≤ s.insize := by
      rw [hts]; simp only [BS]; split <;> omega
    have hu : ((to_ulong ts : Nat) : Int) = ts := by
      unfold to_ulong; omega
    constructor <;>
      simp only [Session.pending, List.countP_append, List.countP_cons,
        List.countP_nil, read_bytes_append, read_bytes_cons, read_bytes_nil, List.length_append,
        List.length_cons, List.length_nil, if_true, Bool.not_true, Bool.false_eq_true,
        if_false, hu, ULONG, QD] <;>
      omega
  case drain_abort hpc h0 hw l1 l2 r hr hp hres hread hsq =>
    exfalso
    have e3 := length_split _ _ _ _ hr
    simp only [QD] at hsq
    omega
  case drain_read hpc h0 hw l1 l2 r hr hp hres hread hsq hk =>
    have e1 := countP_split (fun r => r.read) _ _ _ _ hr
    have e2 := countP_split (fun r => !r.read) _ _ _ _ hr
    have e3 := length_split _ _ _ _ hr
    have e4 := read_bytes_split _ _ _ _ hr
    simp only [hread, if_true, Bool.not_true, Bool.false_eq_true, if_false] at e1 e2 e4
    constructor <;>
      simp only [Session.pending, List.countP_append, List.countP_cons,
        List.countP_nil, read_bytes_append, read_bytes_cons, read_bytes_nil, List.length_append,
        List.length_cons, List.length_nil, if_true, Bool.not_true, Bool.false_eq_true,
        if_false, rearmed, filled, Bool.not_false, ULONG, QD] at e1 e2 e3 e4 ⊢ <;>
      omega
  case drain_read_unsent hpc h0 hw l1 l2 r hr hp hres hread hsq hk =>
    have e1 := countP_split (fun r => r.read) _ _ _ _ hr
    have e2 := countP_split (fun r => !r.read) _ _ _ _ hr
    have e3 := length_split _ _ _ _ hr
    have e4 := read_bytes_split _ _ _ _ hr
    simp only [hread, if_true, Bool.not_true, Bool.false_eq_true, if_false] at e1 e2 e4
    constructor <;>
      simp only [Session.pending, List.countP_append, List.countP_cons,
        List.countP_nil, read_bytes_append, read_bytes_cons, read_bytes_nil, List.length_append,
        List.length_cons, List.length_nil, if_true, Bool.not_true, Bool.false_eq_true,
        if_false, rearmed, filled, Bool.not_false, ULONG, QD] at e1 e2 e3 e4 ⊢ <;>
      omega
  case drain_write hpc h0 hw l1 l2 r hr hp hres hread =>
    have e1 := countP_split (fun r => r.read) _ _ _ _ hr
    have e2 := countP_split (fun r => !r.read) _ _ _ _ hr
    have e3 := length_split _ _ _ _ hr
    have e4 := read_bytes_split _ _ _ _ hr
    simp only [hread, if_true, Bool.not_true, Bool.false_eq_true, if_false, Bool.not_false]
      at e1 e2 e4
    constructor <;>
      simp only [Session.pending, List.countP_append, List.countP_cons,
        List.countP_nil, read_bytes_append, read_bytes_cons, read_bytes_nil, List.length_append,
        List.length_cons, List.length_nil, if_true, Bool.not_true, Bool.false_eq_true,
        if_false, File.pwrite, Bool.not_false, ULONG, QD] at e1 e2 e3 e4 ⊢ <;>
      omega
  all_goals
    constructor <;>
      (try simp only [Session.pending, List.countP_append, List.length_append,
        read_bytes_append, List.append_nil, List.countP_nil, List.length_nil, read_bytes_nil,
        QD]) <;>
      omega

/-! ## Runs -/

theorem run_snoc (k : Answer) (ks : List Answer) (s : Session) :
    run (ks ++ [k]) s = step k (run ks s) := by
  simp [run, List.foldl_append]

/-- A property that holds at the start and is kept by every transition holds after every
run. -/
theorem run_invariant (P : Session → Prop) (s0 : Session) (h0 : P s0)
    (hstep : ∀ k s t, P s → Step k s t → P t) (ks : List Answer) : P (run ks s0) := by
  induction ks using List.reverseRecOn with
  | nil => exact h0
  | append_singleton ks k ih =>
    rw [run_snoc]
    exact hstep k _ _ ih (step_spec k _)

theorem accounting_run (src : File) (ks : List Answer) :
    Accounting src.size (run ks (start src)) :=
  run_invariant _ _ (accounting_start src) (fun k s t h hs => accounting_step _ k s t h hs) ks


/-! ## Exit of the loop -/

theorem exited_start (src : File) : Exited (start src) := by
  intro h; simp [Session.finished, start] at h

theorem exited_step (k : Answer) (s t : Session) (hI : Exited s) (hS : Step k s t) :
    Exited t := by
  unfold Exited Session.finished at *
  cases hS
  case halt => exact hI
  case leave c hpc h1 h2 hc =>
    intro _
    exact ⟨h1, h2, ⟨c, rfl⟩, rfl, rfl⟩
  all_goals
    intro hu
    simp only [List.mem_append, List.mem_cons, List.mem_singleton, List.mem_nil_iff,
      or_false, false_or, reduceCtorEq] at hu
    obtain ⟨-, -, ⟨c, hc⟩, -, -⟩ := hI hu
    simp_all

/-! ## Chunking -/

theorem queued_reads_append (a b : List Event) :
    queued_reads (a ++ b) = queued_reads a ++ queued_reads b := by
  simp [queued_reads, List.filterMap_append]

theorem chunks_succ (N n : Nat) : chunks N (n + 1) = chunks N n ++ [chunk N n] := by
  simp [chunks, List.range_succ]

theorem chunks_length (N n : Nat) : (chunks N n).length = n := by
  simp [chunks]

theorem chunks_sum (N n : Nat) :
    ((chunks N n).map (fun c => c.2)).sum = min (n * BS) N := by
  induction n with
  | zero => simp [chunks]
  | succ n ih =>
    rw [chunks_succ, List.map_append, List.sum_append, ih]
    simp only [chunk, List.map_cons, List.map_nil, List.sum_cons, List.sum_nil, BS]
    omega

theorem chunked_start (src : File) : Chunked src.size (start src) :=
  ⟨0, by simp [start, queued_reads, chunks], by simp [start], Or.inl rfl⟩

theorem chunked_step (N : Nat) (k : Answer) (s t : Session) (hA : Accounting N s)
    (hI : Chunked N s) (hS : Step k s t) : Chunked N t := by
  obtain ⟨n, hq, ho, hn⟩ := hI
  cases hS
  case halt => exact ⟨n, hq, ho, hn⟩
  case fill_read hpc hne hq2 hsq ts hts =>
    have h5 := hA.size_eq
    have h6 := hA.insize_nonneg
    refine ⟨n + 1, ?_, ?_, ?_⟩
    · simp only [queued_reads_append, hq, chunks_succ]
      congr 1
      have hu : to_ulong ts = min BS (N - n * BS) := by
        rw [hts]; unfold to_ulong; simp only [BS] at *; split <;> omega
      simp only [queued_reads, List.filterMap_cons, Event.read_chunk, List.filterMap_nil, chunk,
        hu, ho]
      have : min (n * BS) N = n * BS := by simp only [BS] at *; omega
      rw [this]
    · simp only []
      rw [hts]; simp only [BS] at *; split <;> omega
    · right; simp only [BS] at *; omega
  all_goals
    refine ⟨n, ?_, ho, hn⟩
    first
      | exact hq
      | (simp only [queued_reads_append, hq]; simp [queued_reads, Event.read_chunk])


/-! ## Shape of the ring -/

theorem queued_writes_append (a b : List Event) :
    queued_writes (a ++ b) = queued_writes a ++ queued_writes b := by
  simp [queued_writes, List.filterMap_append]

theorem reading_chunks_append (a b : List io_data) :
    reading_chunks (a ++ b) = reading_chunks a ++ reading_chunks b := by
  simp [reading_chunks]

theorem reading_chunks_cons (r : io_data) (l : List io_data) :
    reading_chunks (r :: l)
      = (if r.read then [(r.first_offset, r.first_len)] else []) ++ reading_chunks l := by
  cases h : r.read <;> simp [reading_chunks, h]

theorem reading_chunks_nil : reading_chunks [] = [] := rfl

theorem shape_start (src : File) : Shape src (start src) := by
  constructor <;> simp [start, Session.pending, queued_writes, queued_reads, reading_chunks]


theorem shape_step (src : File) (N : Nat) (k : Answer) (s t : Session) (hA : Accounting N s)
    (hI : Shape src s) (hS : Step k s t) : Shape src t := by
  obtain ⟨g1, g2, g3, g5⟩ := hI
  rw [List.perm_iff_count] at g5
  have h3 := hA.budget
  have h6 := hA.insize_nonneg
  simp only [Session.pending] at g3 g5 h3
  cases hS
  case halt => exact ⟨g1, g2, g3, List.perm_iff_count.2 g5⟩
  case enter => exact ⟨g1, g2, g3, List.perm_iff_count.2 g5⟩
  case fill_stop => exact ⟨g1, g2, g3, List.perm_iff_count.2 g5⟩
  case flush_none => exact ⟨g1, g2, g3, List.perm_iff_count.2 g5⟩
  case drain_done => exact ⟨g1, g2, g3, List.perm_iff_count.2 g5⟩
  case drain_block => exact ⟨g1, g2, g3, List.perm_iff_count.2 g5⟩
  case fill_read hpc hne hq hsq ts hts =>
    have hts0 : 0 < ts ∧ ts ≤ 10 * 1024 * 1024 ∧ ts ≤ s.insize := by
      rw [hts]; simp only [BS]; split <;> omega
    have hu : ((to_ulong ts : Nat) : Int) = ts := by
      unfold to_ulong; omega
    refine ⟨g1, ?_, ?_, ?_⟩
    · simp only []; omega
    · intro r hr
      simp only [Session.pending, List.mem_append, List.mem_singleton] at hr
      rcases hr with hr | hr | hr
      · have := g3 r (List.mem_append.2 (Or.inl hr))
        simp only []; omega
      · have := g3 r (List.mem_append.2 (Or.inr hr))
        simp only []; omega
      · subst hr
        refine ⟨rfl, rfl, g2, ?_, ?_⟩
        · show s.offset + ((to_ulong ts : Nat) : Int) ≤ s.offset + ts
          omega
        · show 0 < to_ulong ts
          omega
    · rw [List.perm_iff_count]
      intro c
      have := g5 c
      simp only [Session.pending, queued_reads_append, queued_writes_append,
        reading_chunks_append, reading_chunks_cons, reading_chunks_nil, List.count_append,
        if_true, List.append_nil] at this ⊢
      simp only [queued_reads, queued_writes, List.filterMap_cons, List.filterMap_nil,
        Event.read_chunk, Event.write_chunk, List.count_nil] at this ⊢
      omega
  case drain_abort hpc h0 hw l1 l2 r hr hp hres hread hsq =>
    exfalso
    have e3 := length_split _ _ _ _ hr
    simp only [QD, List.length_append] at hsq h3 e3
    omega
  case drain_read hpc h0 hw l1 l2 r hr hp hres hread hsq hk =>
    rw [hr] at g3 g5
    refine ⟨g1, g2, ?_, ?_⟩
    · intro x hx
      simp only [Session.pending, List.mem_append, List.mem_singleton, List.append_nil] at hx
      rcases hx with (hx | hx) | hx | hx
      · exact g3 x (by simp [hx])
      · exact g3 x (by simp [hx])
      · exact g3 x (by simp [hx])
      · subst hx
        have := g3 r (by simp)
        exact ⟨rfl, rfl, this.2.2.1, this.2.2.2.1, this.2.2.2.2⟩
    · rw [List.perm_iff_count]
      intro c
      have := g5 c
      simp only [Session.pending, queued_reads_append, queued_writes_append,
        reading_chunks_append, reading_chunks_cons, reading_chunks_nil, List.count_append,
        if_true, List.append_nil, hread, rearmed, filled, Bool.false_eq_true, if_false]
        at this ⊢
      simp only [queued_reads, queued_writes, List.filterMap_cons, List.filterMap_nil,
        Event.read_chunk, Event.write_chunk, List.count_nil, zero_add, add_zero] at this ⊢
      omega
  case drain_read_unsent hpc h0 hw l1 l2 r hr hp hres hread hsq hk =>
    rw [hr] at g3 g5
    refine ⟨g1, g2, ?_, ?_⟩
    · intro x hx
      simp only [Session.pending, List.mem_append, List.mem_singleton, List.append_nil] at hx
      rcases hx with (hx | hx) | hx | hx
      · exact g3 x (by simp [hx])
      · exact g3 x (by simp [hx])
      · exact g3 x (by simp [hx])
      · subst hx
        have := g3 r (by simp)
        exact ⟨rfl, rfl, this.2.2.1, this.2.2.2.1, this.2.2.2.2⟩
    · rw [List.perm_iff_count]
      intro c
      have := g5 c
      simp only [Session.pending, queued_reads_append, queued_writes_append,
        reading_chunks_append, reading_chunks_cons, reading_chunks_nil, List.count_append,
        if_true, List.append_nil, hread, rearmed, filled, Bool.false_eq_true, if_false]
        at this ⊢
      simp only [queued_reads, queued_writes, List.filterMap_cons, List.filterMap_nil,
        Event.read_chunk, Event.write_chunk, List.count_nil, zero_add, add_zero] at this ⊢
      omega
  case drain_write hpc h0 hw l1 l2 r hr hp hres hread =>
    rw [hr] at g3 g5
    refine ⟨g1, g2, ?_, ?_⟩
    · intro x hx
      simp only [Session.pending, List.mem_append] at hx
      rcases hx with (hx | hx) | hx
      · exact g3 x (by simp [hx])
      · exact g3 x (by simp [hx])
      · exact g3 x (by simp [hx])
    · rw [List.perm_iff_count]
      intro c
      have := g5 c
      simp only [Session.pending, queued_reads_append, queued_writes_append,
        reading_chunks_append, reading_chunks_cons, reading_chunks_nil, List.count_append,
        if_true, List.append_nil, hread, Bool.false_eq_true, if_false]
        at this ⊢
      simp only [queued_reads, queued_writes, List.filterMap_cons, List.filterMap_nil,
        Event.read_chunk, Event.write_chunk, List.count_nil, zero_add, add_zero] at this ⊢
      omega
  all_goals
    refine ⟨g1, g2, ?_, ?_⟩
    · simpa only [Session.pending, List.append_nil] using g3
    · rw [List.perm_iff_count]
      intro c
      have := g5 c
      simp only [Session.pending, queued_reads_append, queued_writes_append,
        List.count_append, List.append_nil] at this ⊢
      simp only [queued_reads, queued_writes, List.filterMap_cons, List.filterMap_nil,
        Event.read_chunk, Event.write_chunk, List.count_nil, zero_add, add_zero] at this ⊢
      omega


/-! ## Buffers and destination -/

theorem step_log (k : Answer) (s t : Session) (hS : Step k s t) :
    ∃ new, t.log = s.log ++ new := by
  cases hS
  case halt => exact ⟨[], by simp⟩
  case enter => exact ⟨[], by simp⟩
  case fill_stop => exact ⟨[], by simp⟩
  case flush_none => exact ⟨[], by simp⟩
  case drain_done => exact ⟨[], by simp⟩
  case drain_block => exact ⟨[], by simp⟩
  all_goals exact ⟨_, by simp only [List.append_assoc]; rfl⟩

theorem clean_of_step (k : Answer) (s t : Session) (hS : Step k s t) (h : Clean t) :
    Clean s := by
  obtain ⟨new, hn⟩ := step_log k s t hS
  intro e he
  exact h e (by rw [hn]; exact List.mem_append.2 (Or.inl he))

theorem data_start (src : File) : Data (start src) := by
  constructor <;> simp [start, Session.pending, File.truncated]


theorem to_ulong_to_int (n : Nat) (h : n ≤ QD) : to_ulong (to_int n) = n := by
  unfold to_ulong to_int
  simp only [QD] at h
  split <;> omega

theorem data_step (src : File) (N : Nat) (k : Answer) (s t : Session)
    (hA : Accounting N s) (hSh : Shape src s) (hC : Clean t) (hD : Data s)
    (hS : Step k s t) : Data t := by
  obtain ⟨d1, d2, d3, d4, d5⟩ := hD
  have hw := hSh.wf
  have hlen := length_eq_countP_add s.pending
  have a1 := hA.reads_eq
  have a3 := hA.budget
  have a6 := hA.insize_nonneg
  simp only [Session.pending] at d1 d2 hw hlen a1 a3
  cases hS
  case halt => exact ⟨d1, d2, d3, d4, d5⟩
  case enter hpc hne =>
    have hsq := d5 (by simp [hpc]) (by simp [hpc])
    refine ⟨d1, d2, d3, ?_, ?_⟩
    · intro _
      show s.sq.length + to_ulong (to_int s.reads) = s.reads
      rw [to_ulong_to_int _ (by omega), hsq]; simp
    · intro h; exact absurd rfl h
  case leave c hpc h1 h2 hc =>
    refine ⟨d1, d2, d3, ?_, ?_⟩
    · intro h; simp at h
    · intro _ _; exact d5 (by simp [hpc]) (by simp [hpc])
  case fill_stop hpc hwhy =>
    refine ⟨d1, d2, d3, ?_, ?_⟩
    · intro _; exact d4 (Or.inl hpc)
    · intro _ h; exact absurd rfl h
  case fill_read hpc hne hq hsq ts hts =>
    have hts0 : 0 < ts ∧ ts ≤ 10 * 1024 * 1024 ∧ ts ≤ s.insize := by
      rw [hts]; simp only [BS]; split <;> omega
    have hu : ((to_ulong ts : Nat) : Int) = ts := by
      unfold to_ulong; omega
    refine ⟨?_, ?_, ?_, ?_, ?_⟩
    · intro r hr hrd
      simp only [Session.pending, List.mem_append, List.mem_singleton] at hr
      rcases hr with hr | hr | hr
      · exact d1 r (List.mem_append.2 (Or.inl hr)) hrd
      · exact d1 r (List.mem_append.2 (Or.inr hr)) hrd
      · subst hr; simp at hrd
    · intro i hi hcov
      simp only [Session.pending] at hcov
      have hi2 : (i : Int) < s.offset + ts := hi
      have hnew := hcov _ (List.mem_append.2 (Or.inr (List.mem_append.2
        (Or.inr (List.mem_singleton.2 rfl)))))
      simp only [covers] at hnew
      refine d2 i (by omega) ?_
      intro r hr
      exact hcov r (by
        simp only [List.mem_append] at hr ⊢
        rcases hr with hr | hr
        · exact Or.inl hr
        · exact Or.inr (Or.inl hr))
    · show (s.dst.size : Int) ≤ s.offset + ts
      omega
    · intro _
      have := d4 (Or.inl hpc)
      simp only [ULONG, QD, List.length_append, List.length_singleton] at *
      omega
    · intro h; exact absurd hpc h
  case flush_none hpc he =>
    have := d4 (Or.inr hpc)
    have hsq : s.sq = [] := List.length_eq_zero.1 (by omega)
    refine ⟨d1, d2, d3, ?_, ?_⟩
    · intro h; simp at h
    · intro _ _; exact hsq
  case flush_ok hpc he hk =>
    refine ⟨?_, ?_, d3, ?_, ?_⟩
    · simpa only [Session.pending, List.append_nil] using d1
    · simpa only [Session.pending, List.append_nil] using d2
    · intro h; simp at h
    · intro _ _; rfl
  case flush_fail hpc he hk =>
    exfalso
    have := hC (Event.submit k.submit_ret) (by simp)
    simp only [Event.clean, decide_eq_true_eq] at this
    omega
  case drain_done hpc h0 =>
    refine ⟨d1, d2, d3, ?_, ?_⟩
    · intro h; simp at h
    · intro _ _; exact d5 (by simp [hpc]) (by simp [hpc])
  case drain_block hpc h0 hw he =>
    refine ⟨d1, d2, d3, ?_, ?_⟩
    · intro h; simp at h
    · intro _ _; exact d5 (by simp [hpc]) (by simp [hpc])
  case drain_wait_fail hpc h0 hw =>
    refine ⟨d1, d2, d3, ?_, ?_⟩
    · intro h; simp at h
    · intro _ _; exact d5 (by simp [hpc]) (by simp [hpc])
  case drain_neg hpc h0 hw r hr hp hres =>
    exfalso
    have := hC (Event.cqe r.read r.offset r.iov_len k.res) (by simp)
    simp only [Event.clean, decide_eq_true_eq] at this
    omega
  case drain_abort hpc h0 hw l1 l2 r hr hp hres hread hsq =>
    exfalso
    have := d5 (by simp [hpc]) (by simp [hpc])
    simp [this, QD] at hsq
  case drain_read_unsent hpc h0 hw l1 l2 r hr hp hres hread hsq hk =>
    exfalso
    have := hC (Event.submit k.submit_ret) (by simp)
    simp only [Event.clean, decide_eq_true_eq] at this
    omega
  case drain_read hpc h0 hwt l1 l2 r hr hp hres hread hsq hk =>
    have hfull := hC (Event.cqe r.read r.offset r.iov_len k.res) (by simp)
    simp only [Event.clean, decide_eq_true_eq] at hfull
    have hsq0 := d5 (by simp [hpc]) (by simp [hpc])
    rw [hr] at d1 d2 hw
    have hwr := hw r (by simp)
    refine ⟨?_, ?_, d3, ?_, ?_⟩
    · intro x hx hxr j hj
      simp only [Session.pending, List.mem_append, List.mem_singleton, List.append_nil] at hx
      rcases hx with (hx | hx) | hx | hx
      · exact d1 x (by simp [hx]) hxr j hj
      · exact d1 x (by simp [hx]) hxr j hj
      · exact d1 x (by simp [hx]) hxr j hj
      · subst hx
        simp only [rearmed, filled] at hj ⊢
        have h1 : j < min k.res.toNat r.iov_len := by omega
        rw [if_pos h1, hwr.1]
    · intro i hi hcov
      refine d2 i hi ?_
      intro x hx
      simp only [Session.pending, List.append_nil] at hcov
      simp only [List.mem_append, List.mem_cons] at hx
      rcases hx with (hx | hx | hx) | hx
      · exact hcov x (by simp [hx])
      · subst hx
        have := hcov (rearmed (filled s.src x k.res)) (by simp)
        simpa only [covers, rearmed, filled] using this
      · exact hcov x (by simp [hx])
      · exact hcov x (by simp [hx])
    · intro h; simp [hpc] at h
    · intro _ _; rfl
  case drain_write hpc h0 hw2 l1 l2 r hr hp hres hread =>
    have hfull := hC (Event.cqe r.read r.offset r.iov_len k.res) (by simp)
    simp only [Event.clean, decide_eq_true_eq] at hfull
    rw [hr] at d1 d2 hw
    have hwr := hw r (by simp)
    have hbuf := d1 r (by simp) hread
    have hmin : min k.res.toNat r.iov_len = r.first_len := by omega
    have hoff : r.offset.toNat = r.first_offset.toNat := by rw [hwr.1]
    refine ⟨?_, ?_, ?_, ?_, ?_⟩
    · intro x hx hxr
      simp only [Session.pending, List.mem_append] at hx
      rcases hx with (hx | hx) | hx
      · exact d1 x (by simp [hx]) hxr
      · exact d1 x (by simp [hx]) hxr
      · exact d1 x (by simp [hx]) hxr
    · intro i hi hcov
      simp only [Session.pending] at hcov
      simp only [File.pwrite, hmin, hoff]
      by_cases hc : covers r i
      · have hc2 := hc
        simp only [covers] at hc2
        have hin : r.first_offset.toNat ≤ i ∧ i < r.first_offset.toNat + r.first_len := by
          omega
        rw [if_pos hin]
        have hb := hbuf (i - r.first_offset.toNat) (by omega)
        rw [hb]
        have : r.first_offset.toNat + (i - r.first_offset.toNat) = i := by omega
        rw [this]
        refine ⟨rfl, ?_⟩
        split <;> omega
      · have hold := d2 i hi (by
          intro x hx
          simp only [List.mem_append, List.mem_cons] at hx
          rcases hx with (hx | hx | hx) | hx
          · exact hcov x (by simp [hx])
          · subst hx; exact hc
          · exact hcov x (by simp [hx])
          · exact hcov x (by simp [hx]))
        have hc2 := hc
        simp only [covers] at hc2
        have hin : ¬ (r.first_offset.toNat ≤ i ∧ i < r.first_offset.toNat + r.first_len) := by
          omega
        rw [if_neg hin]
        refine ⟨hold.1, ?_⟩
        split <;> omega
    · simp only [File.pwrite, hmin, hoff]
      split <;> omega
    · intro h; simp [hpc] at h
    · intro _ _; exact d5 (by simp [hpc]) (by simp [hpc])


/-! ## All invariants together, and the final writes -/

theorem sound_start (src : File) : Sound src (start src) :=
  ⟨accounting_start src, shape_start src, exited_start src, chunked_start src,
    fun _ => data_start src⟩

theorem sound_step (src : File) (k : Answer) (s t : Session) (h : Sound src s)
    (hS : Step k s t) : Sound src t :=
  ⟨accounting_step _ k s t h.acc hS, shape_step src _ k s t h.acc h.shape hS,
    exited_step k s t h.exited hS, chunked_step _ k s t h.acc h.chunked hS,
    fun hC => data_step src _ k s t h.acc h.shape hC (h.data (clean_of_step k s t hS hC)) hS⟩

theorem sound_run (src : File) (ks : List Answer) : Sound src (run ks (start src)) :=
  run_invariant _ _ (sound_start src) (fun k s t h hS => sound_step src k s t h hS) ks

theorem read_bytes_nonneg (l : List io_data) : 0 ≤ read_bytes l := by
  induction l with
  | nil => simp [read_bytes]
  | cons a t ih => rw [read_bytes_cons]; split <;> omega

theorem no_reads_of_read_bytes (l : List io_data) (h0 : read_bytes l = 0)
    (hpos : ∀ r ∈ l, 0 < r.first_len) : ∀ r ∈ l, r.read = false := by
  induction l with
  | nil => intro r hr; simp at hr
  | cons a t ih =>
    rw [read_bytes_cons] at h0
    have hn := read_bytes_nonneg t
    have ha := hpos a (by simp)
    intro r hr
    rcases List.mem_cons.1 hr with hr | hr
    · subst hr
      cases hrd : r.read
      · rfl
      · rw [hrd] at h0; simp only [if_true] at h0; omega
    · refine ih ?_ (fun x hx => hpos x (by simp [hx])) r hr
      split at h0 <;> omega

theorem reading_chunks_of_no_reads (l : List io_data) (h : ∀ r ∈ l, r.read = false) :
    reading_chunks l = [] := by
  induction l with
  | nil => rfl
  | cons a t ih =>
    rw [reading_chunks_cons, h a (by simp), ih (fun x hx => h x (by simp [hx]))]
    simp

theorem settle_cons (r : io_data) (rest : List io_data) (f : File) :
    settle (r :: rest) f = settle rest (apply_write f r) := rfl

theorem settle_correct (src : File) (M : Int) (order : List io_data) :
    ∀ f : File,
    (∀ r ∈ order, r.offset = r.first_offset ∧ r.iov_len = r.first_len ∧
      0 ≤ r.first_offset ∧ r.first_offset + (r.first_len : Int) ≤ M ∧ 0 < r.first_len) →
    (∀ r ∈ order, ∀ j, j < r.first_len → r.buf j = src.byte (r.first_offset.toNat + j)) →
    (f.size : Int) ≤ M →
    (∀ i : Nat, (i : Int) < M → (∀ r ∈ order, ¬ covers r i) →
      f.byte i = src.byte i ∧ i < f.size) →
    ((settle order f).size : Int) ≤ M ∧
      ∀ i : Nat, (i : Int) < M →
        (settle order f).byte i = src.byte i ∧ i < (settle order f).size := by
  induction order with
  | nil =>
    intro f _ _ hs hd
    exact ⟨hs, fun i hi => hd i hi (by simp)⟩
  | cons r rest ih =>
    intro f hwf hbuf hs hd
    rw [settle_cons]
    have hwr := hwf r (by simp)
    have hb := hbuf r (by simp)
    have hoff : r.offset.toNat = r.first_offset.toNat := by rw [hwr.1]
    apply ih
    · exact fun x hx => hwf x (by simp [hx])
    · exact fun x hx => hbuf x (by simp [hx])
    · simp only [apply_write, File.pwrite, hwr.2.1, hoff]
      split <;> omega
    · intro i hi hcov
      simp only [apply_write, File.pwrite, hwr.2.1, hoff]
      by_cases hc : covers r i
      · have hc2 := hc
        simp only [covers] at hc2
        have hin : r.first_offset.toNat ≤ i ∧ i < r.first_offset.toNat + r.first_len := by
          omega
        rw [if_pos hin, hb (i - r.first_offset.toNat) (by omega)]
        have : r.first_offset.toNat + (i - r.first_offset.toNat) = i := by omega
        rw [this]
        refine ⟨rfl, ?_⟩
        split <;> omega
      · have hold := hd i hi (by
          intro x hx
          rcases List.mem_cons.1 hx with hx | hx
          · subst hx; exact hc
          · exact hcov x hx)
        have hc2 := hc
        simp only [covers] at hc2
        have hin : ¬ (r.first_offset.toNat ≤ i ∧ i < r.first_offset.toNat + r.first_len) := by
          omega
        rw [if_neg hin]
        refine ⟨hold.1, ?_⟩
        split <;> omega

theorem content_eq (f g : File) (hs : f.size = g.size)
    (hb : ∀ i, i < g.size → f.byte i = g.byte i) : f.content = g.content := by
  unfold File.content
  rw [hs]
  apply List.map_congr_left
  intro i hi
  exact hb i (List.mem_range.1 hi)

theorem chunk_count_eq (N n : Nat) (h1 : N ≤ n * BS) (h2 : n = 0 ∨ (n - 1) * BS < N) :
    n = chunk_count N := by
  unfold chunk_count
  simp only [BS] at *
  have : n = (N + 10 * 1024 * 1024 - 1) / (10 * 1024 * 1024) := by
    rcases h2 with h2 | h2
    · subst h2; omega
    · omega
  exact this


/-! ## The single turn of the outer loop -/

theorem write_left_start (src : File) : WriteLeft src.size (start src) := by
  intro h1 h2
  simp only [start] at h2
  omega

theorem write_left_step (N : Nat) (k : Answer) (s t : Session) (hA : Accounting N s)
    (hI : WriteLeft N s) (hS : Step k s t) : WriteLeft N t := by
  have hlen := length_eq_countP_add s.pending
  have a2 := hA.writes_eq
  have a3 := hA.budget
  unfold WriteLeft at *
  cases hS
  case drain_read =>
    intro _ _
    show 1 ≤ (s.writes + 1) % ULONG
    simp only [ULONG, QD] at *
    omega
  case drain_read_unsent =>
    intro _ _
    show 1 ≤ (s.writes + 1) % ULONG
    simp only [ULONG, QD] at *
    omega
  case drain_write hpc h0 hw l1 l2 r hr hp hres hread =>
    intro _ h
    exact absurd h h0
  case drain_abort hpc h0 hw l1 l2 r hr hp hres hread hsq =>
    intro _ h
    exact absurd h h0
  all_goals exact hI

theorem budget_bytes : ((QD * BS : Nat) : Int) = 83886080 := by decide

theorem first_turn_start (src : File) : FirstTurn (start src) := by
  refine ⟨?_, ?_, ?_⟩
  · show (0 : Int) ≤ ((QD * BS : Nat) : Int)
    exact Int.ofNat_nonneg _
  · intro _; left; simp [start]
  · intro h; simp [start] at h

theorem first_turn_step (N : Nat) (k : Answer) (s t : Session) (hA : Accounting N s)
    (hI : FirstTurn s) (hS : Step k s t) : FirstTurn t := by
  obtain ⟨f1, f2, f3⟩ := hI
  rw [budget_bytes] at f1
  have hlen := length_eq_countP_add s.pending
  have a1 := hA.reads_eq
  have a2 := hA.writes_eq
  have a3 := hA.budget
  have a4 := hA.write_left_eq
  have a6 := hA.insize_nonneg
  have hrb := read_bytes_nonneg s.pending
  cases hS
  case halt h =>
    exact ⟨budget_bytes ▸ f1, f2, f3⟩
  case enter hpc hne =>
    refine ⟨budget_bytes ▸ f1, fun h => by simp at h, fun _ => ?_⟩
    rcases f2 hpc with h | h
    · exact h
    · omega
  case leave c hpc h1 h2 hc =>
    exact ⟨budget_bytes ▸ f1, fun h => by simp at h, fun h => by simp at h⟩
  case fill_stop hpc hwhy =>
    exact ⟨budget_bytes ▸ f1, fun h => by simp at h, fun _ => f3 (Or.inl hpc)⟩
  case fill_read hpc hne hq hsq ts hts =>
    have hts0 : 0 < ts ∧ ts ≤ 10 * 1024 * 1024 ∧ ts ≤ s.insize := by
      rw [hts]; simp only [BS]; split <;> omega
    have := f3 (Or.inl hpc)
    simp only [ULONG, QD, BS] at *
    refine ⟨?_, fun h => by simp [hpc] at h, fun _ => ⟨this.1, ?_⟩⟩
    · show s.offset + ts ≤ (((8 * (10 * 1024 * 1024) : Nat)) : Int)
      omega
    · show s.offset + ts ≤ (((s.reads + 1) % 18446744073709551616 * (10 * 1024 * 1024) : Nat) : Int)
      omega
  case drain_done hpc h0 =>
    refine ⟨budget_bytes ▸ f1, fun _ => Or.inr ⟨?_, h0⟩, fun h => by simp at h⟩
    show s.insize = 0
    omega
  all_goals
    exact ⟨budget_bytes ▸ f1, fun h => by simp_all, fun h => by simp_all⟩


theorem returned_start (src : File) : Returned (start src) := by
  intro c h; simp [start] at h

theorem returned_step (k : Answer) (s t : Session) (hI : Returned s) (hS : Step k s t) :
    Returned t := by
  unfold Returned at *
  cases hS
  case halt => exact hI
  case leave c hpc h1 h2 hc =>
    intro _ _
    right
    simp [Session.finished]
  case flush_fail => intro c h; left; simpa using h.symm
  case drain_wait_fail => intro c h; left; simpa using h.symm
  case drain_neg => intro c h; left; simpa using h.symm
  all_goals
    intro c h
    simp_all

theorem returned_run (src : File) (ks : List Answer) : Returned (run ks (start src)) :=
  run_invariant _ _ (returned_start src) (fun k s t h hS => returned_step k s t h hS) ks

theorem write_left_run (src : File) (ks : List Answer) :
    WriteLeft src.size (run ks (start src)) :=
  (run_invariant (fun s => Accounting src.size s ∧ WriteLeft src.size s) _
    ⟨accounting_start src, write_left_start src⟩
    (fun k s t h hS => ⟨accounting_step _ k s t h.1 hS, write_left_step _ k s t h.1 h.2 hS⟩)
    ks).2

theorem first_turn_run (src : File) (ks : List Answer) : FirstTurn (run ks (start src)) :=
  (run_invariant (fun s => Accounting src.size s ∧ FirstTurn s) _
    ⟨accounting_start src, first_turn_start src⟩
    (fun k s t h hS => ⟨accounting_step _ k s t h.1 hS, first_turn_step _ k s t h.1 h.2 hS⟩)
    ks).2


/-! ## Failure of a completion -/

theorem aborted_start (src : File) : Aborted (start src) := by
  intro h; simp [start] at h

theorem failed_append (log new : List Event) (h : ∃ e ∈ log ++ new, e.failed = true) :
    (∃ e ∈ log, e.failed = true) ∨ new.any Event.failed = true := by
  obtain ⟨e, he, hf⟩ := h
  rcases List.mem_append.1 he with he | he
  · exact Or.inl ⟨e, he, hf⟩
  · exact Or.inr (List.any_eq_true.2 ⟨e, he, hf⟩)

theorem aborted_step (k : Answer) (s t : Session) (hE : Exited s) (hI : Aborted s)
    (hS : Step k s t) : Aborted t := by
  unfold Aborted at *
  have hno : (¬ ∃ e ∈ s.log, e.failed = true) → ∀ x ∈ s.log, x.failed = false := by
    intro hold x hx
    cases hf : x.failed
    · rfl
    · exact absurd ⟨x, hx, hf⟩ hold
  cases hS
  case halt => exact hI
  case drain_neg hpc h0 hw r hr hp hres =>
    intro _
    by_cases hold : ∃ e ∈ s.log, e.failed = true
    · have := (hI hold).1
      rw [hpc] at this
      exact absurd this (by simp)
    · have hun : Event.unlink ∉ s.log := by
        intro hu
        obtain ⟨-, -, ⟨c, hc⟩, -, -⟩ := hE hu
        rw [hpc] at hc
        exact absurd hc (by simp)
      refine ⟨rfl, rfl, rfl, ?_, s.log, Event.cqe r.read r.offset r.iov_len k.res, ?_,
        hno hold, ?_⟩
      · simp [hun]
      · simp [Event.failed, hres]
      · simp
  all_goals
    intro hnew
    exfalso
    by_cases hold : ∃ e ∈ s.log, e.failed = true
    · have := (hI hold).1
      simp_all
    · first
        | exact hold hnew
        | (simp only [List.append_assoc] at hnew
           rcases failed_append _ _ hnew with h | h
           · exact hold h
           · simp [Event.failed] at h <;> omega)


theorem aborted_run (src : File) (ks : List Answer) : Aborted (run ks (start src)) :=
  (run_invariant (fun s => Exited s ∧ Aborted s) _
    ⟨exited_start src, aborted_start src⟩
    (fun k s t h hS => ⟨exited_step k s t h.1 hS, aborted_step k s t h.1 h.2 hS⟩) ks).2

theorem step_returned (k : Answer) (s : Session) (c : Nat) (h : s.pc = Pc.returned c) :
    step k s = s := by
  unfold step
  simp [h]


/-! ## The completion handler -/

theorem split_append {α : Type} (a new pre post : List α) (e : α)
    (h : a ++ new = pre ++ e :: post) :
    (∃ post1, a = pre ++ e :: post1) ∨ (∃ pre1, pre = a ++ pre1 ∧ new = pre1 ++ e :: post) := by
  rw [List.append_eq_append_iff] at h
  rcases h with ⟨a1, h1, h2⟩ | ⟨c1, h1, h2⟩
  · exact Or.inr ⟨a1, h1, h2⟩
  · cases c1 with
    | nil =>
      refine Or.inr ⟨[], ?_, ?_⟩
      · simpa using h1.symm
      · simpa using h2.symm
    | cons x c2 =>
      simp only [List.cons_append, List.cons.injEq] at h2
      obtain ⟨hx, -⟩ := h2
      subst hx
      exact Or.inl ⟨c2, h1⟩

theorem read_first_start (src : File) : ReadFirst (start src) := by
  intro pre post o l h
  simp [start] at h

theorem read_first_keep (s : Session) (new : List Event) (hI : ReadFirst s)
    (hnew : ∀ o l, Event.prep_write o l ∉ new) :
    ∀ pre post o l, s.log ++ new = pre ++ Event.prep_write o l :: post →
      ∃ res, 0 ≤ res ∧ Event.cqe true o l res ∈ pre := by
  intro pre post o l h
  rcases split_append _ _ _ _ _ h with ⟨p1, h1⟩ | ⟨p1, h1, h2⟩
  · exact hI pre p1 o l h1
  · exfalso
    exact hnew o l (by rw [h2]; simp)

theorem read_first_step (src : File) (k : Answer) (s t : Session) (hSh : Shape src s)
    (hI : ReadFirst s) (hS : Step k s t) : ReadFirst t := by
  have hw := hSh.wf
  unfold ReadFirst
  cases hS
  case halt => exact hI
  case enter => exact hI
  case fill_stop => exact hI
  case flush_none => exact hI
  case drain_done => exact hI
  case drain_block => exact hI
  case drain_read hpc h0 hwt l1 l2 r hr hp hres hread hsq hk =>
    have hwr := hw r (by simp [Session.pending, hr])
    intro pre post o l h
    simp only [List.append_assoc, List.singleton_append] at h
    rcases split_append _ _ _ _ _ h with ⟨p1, h1⟩ | ⟨p1, h1, h2⟩
    · exact hI pre p1 o l h1
    · cases p1 with
      | nil => simp at h2
      | cons x p2 =>
        cases p2 with
        | nil =>
          simp only [List.cons_append, List.nil_append, List.cons.injEq, Event.prep_write.injEq]
            at h2
          obtain ⟨hx, ⟨ho, hl⟩, -⟩ := h2
          refine ⟨k.res, hres, ?_⟩
          rw [h1, ← hx, ← ho, ← hl, hread, hwr.1, hwr.2.1]
          simp
        | cons y p3 =>
          cases p3 with
          | nil => simp at h2
          | cons z p4 => simp at h2
  case drain_read_unsent hpc h0 hwt l1 l2 r hr hp hres hread hsq hk =>
    have hwr := hw r (by simp [Session.pending, hr])
    intro pre post o l h
    simp only [List.append_assoc, List.singleton_append] at h
    rcases split_append _ _ _ _ _ h with ⟨p1, h1⟩ | ⟨p1, h1, h2⟩
    · exact hI pre p1 o l h1
    · cases p1 with
      | nil => simp at h2
      | cons x p2 =>
        cases p2 with
        | nil =>
          simp only [List.cons_append, List.nil_append, List.cons.injEq, Event.prep_write.injEq]
            at h2
          obtain ⟨hx, ⟨ho, hl⟩, -⟩ := h2
          refine ⟨k.res, hres, ?_⟩
          rw [h1, ← hx, ← ho, ← hl, hread, hwr.1, hwr.2.1]
          simp
        | cons y p3 =>
          cases p3 with
          | nil => simp at h2
          | cons z p4 => simp at h2
  all_goals
    simp only [List.append_assoc]
    exact read_first_keep s _ hI (by simp)


theorem read_first_run (src : File) (ks : List Answer) : ReadFirst (run ks (start src)) :=
  (run_invariant (fun s => Sound src s ∧ ReadFirst s) _
    ⟨sound_start src, read_first_start src⟩
    (fun k s t h hS => ⟨sound_step src k s t h.1 hS,
      read_first_step src k s t h.1.shape h.2 hS⟩) ks).2

theorem handled_of_step (src : File) (k : Answer) (r : io_data) (s t : Session)
    (hS : Sound src s) (hpc : s.pc = Pc.drain) (hwl : s.write_left ≠ 0)
    (hwait : 0 ≤ k.wait_ret)
    (hpick : s.inflight.get? (k.pick % s.inflight.length) = some r) (hres : 0 ≤ k.res)
    (hstep : Step k s t) : Handled k r s t := by
  have hlen := length_eq_countP_add s.pending
  have a1 := hS.acc.reads_eq
  have a2 := hS.acc.writes_eq
  have a3 := hS.acc.budget
  have hw := hS.shape.wf
  simp only [Session.pending, List.countP_append, List.length_append, QD] at hlen a1 a2 a3
  cases hstep
  case halt h => exact absurd hpc h.2.2.2
  case enter h _ => rw [hpc] at h; exact absurd h (by simp)
  case leave h _ _ _ => rw [hpc] at h; exact absurd h (by simp)
  case fill_stop h _ => rw [hpc] at h; exact absurd h (by simp)
  case fill_read h _ _ _ _ _ => rw [hpc] at h; exact absurd h (by simp)
  case flush_none h _ => rw [hpc] at h; exact absurd h (by simp)
  case flush_ok h _ _ => rw [hpc] at h; exact absurd h (by simp)
  case flush_fail h _ _ => rw [hpc] at h; exact absurd h (by simp)
  case drain_done _ h0 => exact absurd h0 hwl
  case drain_block _ _ _ he => rw [he] at hpick; simp at hpick
  case drain_wait_fail _ _ h => omega
  case drain_neg _ _ _ _ _ _ h => omega
  case drain_abort _ _ _ l1 l2 r1 hr hp _ hread hsq =>
    exfalso
    have e3 := length_split _ _ _ _ hr
    simp only [QD, List.length_append] at hsq e3
    omega
  case drain_read _ _ _ l1 l2 r1 hr hp _ hread hsq hk =>
    rw [hpick] at hp
    have hrr : r = r1 := Option.some.inj hp
    subst hrr
    have hwr := hw r (by simp [Session.pending, hr])
    have e1 := countP_split (fun r => r.read) _ _ _ _ hr
    have e3 := length_split _ _ _ _ hr
    simp only [hread, if_true, List.countP_append, List.length_append] at e1 e3
    refine ⟨fun _ => ⟨?_, ?_, ?_, rfl, rfl, rfl, hpc, ⟨((s.sq.length + 1 : Nat) : Int), ?_⟩, ⟨rearmed (filled s.src r k.res),
      ?_, rfl, ?_, ?_⟩, ?_⟩, fun h => by rw [hread] at h; exact absurd h (by simp)⟩
    · show (s.reads + ULONG - 1) % ULONG + 1 = s.reads
      simp only [ULONG]; omega
    · show (s.writes + 1) % ULONG = s.writes + 1
      simp only [ULONG]; omega
    · show s.write_left - (r.first_len : Int) = s.write_left - (r.iov_len : Int)
      rw [hwr.2.1]
    · show s.log ++ [Event.cqe r.read r.offset r.iov_len k.res]
          ++ [Event.prep_write r.first_offset r.first_len]
          ++ [Event.submit ((s.sq.length + 1 : Nat) : Int)] = _
      rw [hread, hwr.1, hwr.2.1]
      simp
    · simp [Session.pending]
    · exact hwr.1.symm
    · exact hwr.2.1.symm
    · simp only [Session.pending, List.length_append, List.length_cons, List.length_nil]
      omega
  case drain_read_unsent _ _ _ l1 l2 r1 hr hp _ hread hsq hk =>
    rw [hpick] at hp
    have hrr : r = r1 := Option.some.inj hp
    subst hrr
    have hwr := hw r (by simp [Session.pending, hr])
    have e1 := countP_split (fun r => r.read) _ _ _ _ hr
    have e3 := length_split _ _ _ _ hr
    simp only [hread, if_true, List.countP_append, List.length_append] at e1 e3
    refine ⟨fun _ => ⟨?_, ?_, ?_, rfl, rfl, rfl, hpc, ⟨k.submit_ret, ?_⟩, ⟨rearmed (filled s.src r k.res),
      ?_, rfl, ?_, ?_⟩, ?_⟩, fun h => by rw [hread] at h; exact absurd h (by simp)⟩
    · show (s.reads + ULONG - 1) % ULONG + 1 = s.reads
      simp only [ULONG]; omega
    · show (s.writes + 1) % ULONG = s.writes + 1
      simp only [ULONG]; omega
    · show s.write_left - (r.first_len : Int) = s.write_left - (r.iov_len : Int)
      rw [hwr.2.1]
    · show s.log ++ [Event.cqe r.read r.offset r.iov_len k.res]
          ++ [Event.prep_write r.first_offset r.first_len]
          ++ [Event.submit k.submit_ret] = _
      rw [hread, hwr.1, hwr.2.1]
      simp
    · simp [Session.pending]
    · exact hwr.1.symm
    · exact hwr.2.1.symm
    · simp only [Session.pending, List.length_append, List.length_cons, List.length_nil]
      omega
  case drain_write _ _ _ l1 l2 r1 hr hp _ hread =>
    rw [hpick] at hp
    have hrr : r = r1 := Option.some.inj hp
    subst hrr
    have e2 := countP_split (fun r => !r.read) _ _ _ _ hr
    have e3 := length_split _ _ _ _ hr
    have a8 := hS.acc.live_eq
    simp only [hread, if_true, List.countP_append, List.length_append, Bool.not_false,
      Session.pending] at e2 e3 a8
    refine ⟨fun h => by rw [hread] at h; exact absurd h (by simp),
      fun _ => ⟨?_, rfl, rfl, rfl, rfl, ?_, hpc, ?_, ?_⟩⟩
    · show (s.writes + ULONG - 1) % ULONG + 1 = s.writes
      simp only [ULONG]; omega
    · show s.live - 1 + 1 = s.live
      omega
    · show s.log ++ [Event.cqe r.read r.offset r.iov_len k.res] ++ [Event.free r.offset] = _
      rw [hread]; simp
    · simp only [Session.pending, List.length_append]
      omega



/-! ## The turns of `sync_file` -/

/-- The five outcomes of `io_uring_wait_cqe`. -/
theorem wait_spec (k : Answer) (s : Session) :
    (k.wait_ret < 0 ∧ io_uring_wait_cqe k s = Wait.error k.wait_ret) ∨
    (0 ≤ k.wait_ret ∧ s.inflight = [] ∧ io_uring_wait_cqe k s = Wait.block) ∨
    (∃ r, 0 ≤ k.wait_ret ∧ s.inflight.get? (k.pick % s.inflight.length) = some r ∧
      ((k.res < 0 ∧ io_uring_wait_cqe k s = Wait.cqe (k.pick % s.inflight.length) r k.res
          { s with log := s.log ++ [Event.cqe r.read r.offset r.iov_len k.res] }) ∨
       (0 ≤ k.res ∧ r.read = true ∧ io_uring_wait_cqe k s
          = Wait.cqe (k.pick % s.inflight.length) (filled s.src r k.res) k.res
          { s with log := s.log ++ [Event.cqe r.read r.offset r.iov_len k.res] }) ∨
       (0 ≤ k.res ∧ r.read = false ∧ io_uring_wait_cqe k s
          = Wait.cqe (k.pick % s.inflight.length) r k.res
          { s with dst := s.dst.pwrite r.offset.toNat (min k.res.toNat r.iov_len) r.buf,
                   log := s.log ++ [Event.cqe r.read r.offset r.iov_len k.res] }))) := by
  unfold io_uring_wait_cqe
  by_cases hw : k.wait_ret < 0
  · left; simp [hw]
  · right
    simp only [hw, if_false]
    cases hg : s.inflight.get? (k.pick % s.inflight.length) with
    | none => left; exact ⟨by omega, get_none_nil _ _ hg, rfl⟩
    | some r =>
      right
      refine ⟨r, by omega, rfl, ?_⟩
      simp only [kernel_effect]
      by_cases hres : k.res < 0
      · left; simp [hres]
      · right
        by_cases hread : r.read = true
        · left; simp [hres, hread, filled]; omega
        · right; simp [hres, hread]; omega

theorem wait_log (k : Answer) (s : Session) (idx : Nat) (data : io_data) (res : Int)
    (s2 : Session) (h : io_uring_wait_cqe k s = Wait.cqe idx data res s2) :
    ∃ new, s2.log = s.log ++ new := by
  rcases wait_spec k s with ⟨-, h1⟩ | ⟨-, -, h1⟩ | ⟨r, -, -, ⟨-, h1⟩ | ⟨-, -, h1⟩ | ⟨-, -, h1⟩⟩
  · rw [h1] at h; cases h
  · rw [h1] at h; cases h
  · rw [h1] at h; cases h; exact ⟨_, rfl⟩
  · rw [h1] at h; cases h; exact ⟨_, rfl⟩
  · rw [h1] at h; cases h; exact ⟨_, rfl⟩

theorem submit_log (k : Answer) (s : Session) :
    ∃ new, (io_uring_submit k s).2.log = s.log ++ new := by
  unfold io_uring_submit
  split <;> exact ⟨_, rfl⟩

theorem bail_log (o : Int) (s : Session) : ∃ new, (sync_bail o s).log = s.log ++ new := by
  unfold sync_bail close_both
  exact ⟨_, by simp only [List.append_assoc]; rfl⟩

theorem log_trans {a b c : List Event} (h1 : ∃ new, b = a ++ new) (h2 : ∃ new, c = b ++ new) :
    ∃ new, c = a ++ new := by
  obtain ⟨x, hx⟩ := h1
  obtain ⟨y, hy⟩ := h2
  exact ⟨x ++ y, by rw [hy, hx, List.append_assoc]⟩

theorem clean_of_log {s t : Session} (h : ∃ new, t.log = s.log ++ new) (hC : Clean t) :
    Clean s := by
  obtain ⟨new, hn⟩ := h
  intro e he
  exact hC e (by rw [hn]; exact List.mem_append.2 (Or.inl he))

theorem sync_write_done_log (k : Answer) (ts : Int) (data : io_data) (s : Session) :
    ∃ new, (sync_write_done k ts data s).log = s.log ++ new := by
  unfold sync_write_done
  split
  · exact ⟨[], by simp⟩
  · exact bail_log _ _
  · rename_i idx got res s2 hw
    have h2 : ∃ new, (io_uring_cqe_seen idx s2).log = s.log ++ new :=
      wait_log _ _ idx got res s2 hw
    split
    · exact log_trans h2 (bail_log _ _)
    · exact log_trans h2 ⟨_, rfl⟩

theorem sync_write_log (k : Answer) (ts : Int) (data : io_data) (s : Session) :
    ∃ new, (sync_write k ts data s).log = s.log ++ new := by
  unfold sync_write
  split
  · exact bail_log _ _
  · have h1 := log_trans (a := s.log) ⟨_, rfl⟩
      (submit_log k (sync_prep { data with read := false }
        (Event.prep_write s.offset data.iov_len) s))
    dsimp only
    split
    · exact log_trans h1 (bail_log _ _)
    · exact log_trans h1 (sync_write_done_log _ _ _ _)

theorem sync_read_done_log (k1 k2 : Answer) (ts : Int) (data : io_data) (s : Session) :
    ∃ new, (sync_read_done k1 k2 ts data s).log = s.log ++ new := by
  unfold sync_read_done
  split
  · exact ⟨[], by simp⟩
  · exact bail_log _ _
  · rename_i idx got res s2 hw
    have h2 : ∃ new, (io_uring_cqe_seen idx s2).log = s.log ++ new :=
      wait_log _ _ idx got res s2 hw
    split
    · exact log_trans h2 (bail_log _ _)
    · exact log_trans h2 (sync_write_log _ _ _ _)

theorem bail_unclean (o : Int) (s : Session) (e : Event) (he : e ∈ s.log)
    (hbad : e.clean = false) : ¬ Clean (sync_bail o s) := by
  intro hC
  have := hC e (by simp [sync_bail, close_both, he])
  rw [hbad] at this
  cases this

/-- The write half of a turn of `sync_file` when its single operation completes in full. -/
theorem sync_write_done_clean (k : Answer) (ts : Int) (data w : io_data) (s : Session)
    (hin : s.inflight = [w]) (hw : w.read = false) (hwait : 0 ≤ k.wait_ret)
    (hC : Clean (sync_write_done k ts data s)) :
    sync_write_done k ts data s =
      { s with inflight := [], dst := s.dst.pwrite w.offset.toNat w.iov_len w.buf,
               offset := s.offset + ts, write_left := s.write_left - ts, live := s.live - 1,
               log := s.log ++ [Event.cqe false w.offset w.iov_len (w.iov_len : Int)]
                        ++ [Event.free data.offset] } := by
  unfold sync_write_done at hC ⊢
  rcases wait_spec k s with ⟨h, -⟩ | ⟨-, h, -⟩ | ⟨r, -, hg, h⟩
  · omega
  · rw [hin] at h; cases h
  · have hr : r = w := by
      rw [hin] at hg
      simpa [Nat.mod_one] using hg.symm
    subst hr
    rcases h with ⟨hneg, he⟩ | ⟨_, hrd, _⟩ | ⟨hres, _, he⟩
    · exfalso
      rw [he] at hC
      simp only [hneg, if_true] at hC
      exact bail_unclean _ _ (Event.cqe r.read r.offset r.iov_len k.res)
        (by simp [io_uring_cqe_seen]) (by simp [Event.clean]; omega) hC
    · rw [hw] at hrd; cases hrd
    · rw [he] at hC ⊢
      have hn : ¬ k.res < 0 := by omega
      simp only [hn, if_false] at hC ⊢
      have hfull := hC (Event.cqe r.read r.offset r.iov_len k.res)
        (by simp [io_uring_cqe_seen])
      simp only [Event.clean, decide_eq_true_eq] at hfull
      have hmin : min k.res.toNat r.iov_len = r.iov_len := by omega
      simp [hin, hmin, hfull, hw, Nat.mod_one, io_uring_cqe_seen]


theorem sync_write_clean (k : Answer) (ts : Int) (data : io_data) (s : Session)
    (hsq : s.sq = []) (hin : s.inflight = []) (hwait : 0 ≤ k.wait_ret)
    (hC : Clean (sync_write k ts data s)) :
    sync_write k ts data s =
      { s with dst := s.dst.pwrite data.offset.toNat data.iov_len data.buf,
               offset := s.offset + ts, write_left := s.write_left - ts, live := s.live - 1,
               log := s.log ++ [Event.prep_write s.offset data.iov_len] ++ [Event.submit 1]
                        ++ [Event.cqe false data.offset data.iov_len (data.iov_len : Int)]
                        ++ [Event.free data.offset] } := by
  unfold sync_write at hC ⊢
  have hget : io_uring_get_sqe s = true := by simp [io_uring_get_sqe, hsq, QD]
  simp only [hget, Bool.not_true, Bool.false_eq_true, if_false] at hC ⊢
  unfold io_uring_submit at hC ⊢
  by_cases hk : k.submit_ret < 0
  · exfalso
    simp only [hk, if_true] at hC
    exact bail_unclean _ _ (Event.submit k.submit_ret) (by simp)
      (by simp [Event.clean]; omega) hC
  · simp only [hk, if_false] at hC ⊢
    have hlen : ¬ (((sync_prep { data with read := false }
        (Event.prep_write s.offset data.iov_len) s).sq.length : Int) < 0) := by omega
    simp only [hlen, if_false] at hC ⊢
    rw [sync_write_done_clean k ts data { data with read := false } _
      (by simp [sync_prep, hin, hsq]) rfl hwait hC]
    simp [sync_prep, hsq, hin]

theorem sync_read_done_clean (k1 k2 : Answer) (ts : Int) (data : io_data) (s : Session)
    (hsq : s.sq = []) (hin : s.inflight = [data]) (hrd : data.read = true)
    (hw1 : 0 ≤ k1.wait_ret) (hw2 : 0 ≤ k2.wait_ret)
    (hC : Clean (sync_read_done k1 k2 ts data s)) :
    sync_read_done k1 k2 ts data s =
      { s with inflight := [],
               dst := s.dst.pwrite data.offset.toNat data.iov_len
                 (filled s.src data (data.iov_len : Int)).buf,
               offset := s.offset + ts, write_left := s.write_left - ts, live := s.live - 1,
               log := s.log ++ [Event.cqe true data.offset data.iov_len (data.iov_len : Int)]
                        ++ [Event.prep_write s.offset data.iov_len] ++ [Event.submit 1]
                        ++ [Event.cqe false data.offset data.iov_len (data.iov_len : Int)]
                        ++ [Event.free data.offset] } := by
  unfold sync_read_done at hC ⊢
  rcases wait_spec k1 s with ⟨h, -⟩ | ⟨-, h, -⟩ | ⟨r, -, hg, h⟩
  · omega
  · rw [hin] at h; cases h
  · have hr : r = data := by
      rw [hin] at hg
      simpa [Nat.mod_one] using hg.symm
    subst hr
    rcases h with ⟨hneg, he⟩ | ⟨hres, _, he⟩ | ⟨_, hrd2, _⟩
    · exfalso
      rw [he] at hC
      simp only [hneg, if_true] at hC
      exact bail_unclean _ _ (Event.cqe r.read r.offset r.iov_len k1.res)
        (by simp [io_uring_cqe_seen]) (by simp [Event.clean]; omega) hC
    · rw [he] at hC ⊢
      have hn : ¬ k1.res < 0 := by omega
      have hown : (k1.pick % s.inflight.length + 1 = s.inflight.length) := by
        rw [hin]; simp [Nat.mod_one]
      simp only [hn, if_false, hown, decide_True, if_true] at hC ⊢
      have hC1 := clean_of_log (sync_write_log _ _ _ _) hC
      have hfull := hC1 (Event.cqe r.read r.offset r.iov_len k1.res)
        (by simp [io_uring_cqe_seen])
      simp only [Event.clean, decide_eq_true_eq] at hfull
      rw [sync_write_clean k2 ts _ _ (by simp [hsq, io_uring_cqe_seen])
        (by simp [hin, Nat.mod_one, io_uring_cqe_seen]) hw2 hC]
      simp [hin, hfull, hrd, filled, Nat.mod_one, io_uring_cqe_seen]
    · rw [hrd] at hrd2; cases hrd2


theorem sync_chunk_log (k1 k2 : Answer) (s : Session) :
    ∃ new, (sync_chunk k1 k2 s).log = s.log ++ new := by
  unfold sync_chunk
  dsimp only
  generalize (if s.write_left > (BS : Int) then (BS : Int) else s.write_left) = ts
  by_cases hm : k1.malloc_ok = true
  · simp only [hm, Bool.not_true, Bool.false_eq_true, if_false]
    by_cases hg : io_uring_get_sqe { s with live := s.live + 1 } = true
    · simp only [hg, Bool.not_true, Bool.false_eq_true, if_false]
      have h1 := log_trans (a := s.log) ⟨_, rfl⟩
        (submit_log k1 (sync_prep
          { read := true, first_offset := 0, offset := s.offset, first_len := 0,
            iov_len := to_ulong ts, buf := k1.junk }
          (Event.prep_read s.offset (to_ulong ts))
          { s with live := s.live + 1 }))
      split
      · exact log_trans h1 (bail_log _ _)
      · exact log_trans h1 (sync_read_done_log _ _ _ _ _)
    · simp only [hg, Bool.not_false, if_true]
      exact log_trans (b := s.log) ⟨[], by simp⟩ (bail_log _ _)
  · simp only [hm, Bool.not_false, if_true]
    exact ⟨_, rfl⟩

theorem sync_step_log (k : Answer × Answer) (s : Session) :
    ∃ new, (sync_step k s).log = s.log ++ new := by
  unfold sync_step
  split
  · split
    · exact sync_chunk_log _ _ _
    · exact ⟨_, rfl⟩
  · exact ⟨[], by simp⟩

theorem sync_run_cons (k : Answer × Answer) (ks : List (Answer × Answer)) (s : Session) :
    sync_run (k :: ks) s = sync_run ks (sync_step k s) := rfl

theorem sync_run_log (ks : List (Answer × Answer)) :
    ∀ s : Session, ∃ new, (sync_run ks s).log = s.log ++ new := by
  induction ks with
  | nil => intro s; exact ⟨[], by simp [sync_run]⟩
  | cons k rest ih =>
    intro s
    rw [sync_run_cons]
    exact log_trans (sync_step_log k s) (ih _)

/-- One turn of the loop of `sync_file` on an idle ring, when nothing fails and both
operations complete in full. -/
theorem sync_chunk_clean (k1 k2 : Answer) (s : Session)
    (hsq : s.sq = []) (hin : s.inflight = []) (hm : k1.malloc_ok = true)
    (hw1 : 0 ≤ k1.wait_ret) (hw2 : 0 ≤ k2.wait_ret) (ts : Int)
    (hts : ts = if s.write_left > (BS : Int) then (BS : Int) else s.write_left)
    (hC : Clean (sync_chunk k1 k2 s)) :
    sync_chunk k1 k2 s =
      { s with dst := s.dst.pwrite s.offset.toNat (to_ulong ts)
                 (fun j => if j < to_ulong ts then s.src.byte (s.offset.toNat + j)
                   else k1.junk j),
               offset := s.offset + ts, write_left := s.write_left - ts,
               live := s.live + 1 - 1,
               log := s.log ++ [Event.prep_read s.offset (to_ulong ts), Event.submit 1,
                 Event.cqe true s.offset (to_ulong ts) (to_ulong ts : Nat),
                 Event.prep_write s.offset (to_ulong ts), Event.submit 1,
                 Event.cqe false s.offset (to_ulong ts) (to_ulong ts : Nat),
                 Event.free s.offset] } := by
  subst hts
  unfold sync_chunk at hC ⊢
  have hget : io_uring_get_sqe { s with live := s.live + 1 } = true := by
    simp [io_uring_get_sqe, hsq, QD]
  simp only [hm, hget, Bool.not_true, Bool.false_eq_true, if_false] at hC ⊢
  unfold io_uring_submit at hC ⊢
  by_cases hk : k1.submit_ret < 0
  · exfalso
    simp only [hk, if_true] at hC
    exact bail_unclean _ _ (Event.submit k1.submit_ret) (by simp)
      (by simp [Event.clean]; omega) hC
  · simp only [hk, if_false] at hC ⊢
    have hlen : ∀ (d : io_data) (e : Event) (u : Session),
        ¬ (((sync_prep d e u).sq.length : Int) < 0) := by intros; omega
    simp only [hlen, if_false] at hC ⊢
    rw [sync_read_done_clean k1 k2 _ _ _ (by simp) (by simp [sync_prep, hin, hsq]) rfl hw1 hw2 hC]
    simp [sync_prep, hsq, hin, filled]


/-! ## The loop of `sync_file` -/

theorem sync_log_succ (N n : Nat) :
    sync_log N (n + 1) = sync_log N n ++ turn_events (chunk N n) := by
  simp [sync_log, chunks_succ]

theorem synced_step (src : File) (n : Nat) (k : Answer × Answer) (s : Session)
    (hI : Synced src n s) (hpos : 0 < s.write_left)
    (hm : k.1.malloc_ok = true) (hw1 : 0 ≤ k.1.wait_ret) (hw2 : 0 ≤ k.2.wait_ret)
    (hC : Clean (sync_step k s)) :
    Synced src (n + 1) (sync_step k s) := by
  obtain ⟨h1, ⟨h2, h3⟩, h4, h5, h6, h7, h8, h9, h10, h11⟩ := hI
  have hstep : sync_step k s = sync_chunk k.1 k.2 s := by
    unfold sync_step; simp [h1, hpos]
  rw [hstep] at hC ⊢
  have hnb : n * BS < src.size := by
    simp only [BS] at *; omega
  have hoff : s.offset = ((n * BS : Nat) : Int) := by
    rw [h5]; simp only [BS] at *; omega
  have hts : (if s.write_left > (BS : Int) then (BS : Int) else s.write_left)
      = ((min BS (src.size - n * BS) : Nat) : Int) := by
    simp only [BS] at *; split <;> omega
  have hu : to_ulong ((min BS (src.size - n * BS) : Nat) : Int) = min BS (src.size - n * BS) := by
    unfold to_ulong; simp only [BS] at *; omega
  rw [sync_chunk_clean k.1 k.2 s h3 h2 hm hw1 hw2 _ hts.symm hC]
  rw [hu, hoff]
  refine ⟨h1, ⟨h2, h3⟩, h4, ?_, ?_, ?_, ?_, ?_, ?_, ?_⟩
  · show ((n * BS : Nat) : Int) + ((min BS (src.size - n * BS) : Nat) : Int) = _
    simp only [BS] at *; omega
  · show s.write_left - ((min BS (src.size - n * BS) : Nat) : Int)
      = (src.size : Int) - (((n * BS : Nat) : Int) + ((min BS (src.size - n * BS) : Nat) : Int))
    omega
  · show s.live + 1 - 1 = 0
    omega
  · simp only [File.pwrite, Int.toNat_ofNat]
    simp only [BS] at *; split <;> omega
  · intro i hi
    simp only [File.pwrite, Int.toNat_ofNat] at hi ⊢
    by_cases hc : n * BS ≤ i ∧ i < n * BS + min BS (src.size - n * BS)
    · rw [if_pos hc, h4]
      have : i - n * BS < min BS (src.size - n * BS) := by omega
      rw [if_pos this]
      congr 1
      omega
    · rw [if_neg hc]
      apply h9
      simp only [BS] at *
      split at hi <;> omega
  · show s.log ++ _ = _
    rw [h10, sync_log_succ]
    simp [turn_events, chunk]
  · right; simp only [BS] at *; omega

theorem sync_run_returned (ks : List (Answer × Answer)) (s : Session) (c : Nat)
    (h : s.pc = Pc.returned c) : sync_run ks s = s := by
  induction ks with
  | nil => rfl
  | cons k rest ih =>
    rw [sync_run_cons]
    have : sync_step k s = s := by unfold sync_step; simp [h]
    rw [this, ih]

theorem sync_run_done (src : File) (ks : List (Answer × Answer)) :
    ∀ (n : Nat) (s : Session), Synced src n s →
      (∀ k ∈ ks, k.1.malloc_ok = true ∧ 0 ≤ k.1.wait_ret ∧ 0 ≤ k.2.wait_ret) →
      Clean (sync_run ks s) → chunk_count src.size - n < ks.length →
      SyncDone src (sync_run ks s) := by
  induction ks with
  | nil => intro n s _ _ _ h; simp at h
  | cons k rest ih =>
    intro n s hI hcalm hC hlen
    rw [sync_run_cons] at hC ⊢
    obtain ⟨hm, hw1, hw2⟩ := hcalm k (by simp)
    by_cases hpos : 0 < s.write_left
    · have hC1 : Clean (sync_step k s) := clean_of_log (sync_run_log rest _) hC
      have hI2 := synced_step src n k s hI hpos hm hw1 hw2 hC1
      apply ih (n + 1) _ hI2 (fun x hx => hcalm x (by simp [hx])) hC
      have h5 := hI.offset_eq
      have h6 := hI.left_eq
      simp only [List.length_cons] at hlen
      unfold chunk_count at hlen ⊢
      simp only [BS] at *
      omega
    · obtain ⟨h1, ⟨h2, h3⟩, h4, h5, h6, h7, h8, h9, h10, h11⟩ := hI
      have hstep : sync_step k s = { close_both s with pc := Pc.returned 0 } := by
        unfold sync_step; simp [h1, hpos]
      rw [hstep, sync_run_returned rest _ 0 rfl]
      have hge : src.size ≤ n * BS := by simp only [BS] at *; omega
      have hcnt : n = chunk_count src.size := chunk_count_eq _ _ hge h11
      have hmin : min (n * BS) src.size = src.size := by omega
      refine ⟨rfl, ?_, ?_, ?_, ⟨h2, h3⟩, h7⟩
      · show s.dst.size = src.size
        rw [h8, hmin]
      · intro i hi
        exact h9 i (by rw [h8, hmin]; exact hi)
      · show s.log ++ [Event.close_in, Event.close_out] = _
        rw [h10, ← hcnt]

theorem synced_start (src : File) :
    Synced src 0 { start src with log := [Event.open_in, Event.open_out] } := by
  constructor <;> simp [start, File.truncated, sync_log, chunks]


/-! ## Progress of the session within the budget -/

theorem progress_start (src : File) : Progress (start src) := by
  constructor <;> simp [start, queued_reads]

theorem progress_step (src : File) (k : Answer) (s t : Session)
    (hN : src.size ≤ QD * BS) (hS : Sound src s) (hB : Benign k) (hP : Progress s)
    (hstep : Step k s t) : Progress t ∧ (fuel s ≠ 0 → fuel t < fuel s) := by
  obtain ⟨p1, p2, p3, p4, p5, p6, p7⟩ := hP
  obtain ⟨b1, b2, b3, b4⟩ := hB
  have hlen := length_eq_countP_add s.pending
  have a1 := hS.acc.reads_eq
  have a2 := hS.acc.writes_eq
  have a3 := hS.acc.budget
  have a4 := hS.acc.write_left_eq
  have a5 := hS.acc.size_eq
  have a6 := hS.acc.insize_nonneg
  have hrb := read_bytes_nonneg s.pending
  simp only [Session.pending, List.countP_append, List.length_append, read_bytes_append, QD]
    at hlen a1 a2 a3 a4 hrb
  simp only [QD, BS] at hN
  cases hstep
  case halt h =>
    refine ⟨⟨p1, p2, p3, p4, p5, p6, p7⟩, fun hf => ?_⟩
    exfalso
    apply hf
    unfold fuel
    split <;> simp_all
  case enter hpc hne =>
    have hsq := p2 (by simp [hpc]) (by simp [hpc])
    have hfirst : s.writes = 0 ∧ (queued_reads s.log).length = s.reads := by
      rcases p4 hpc with h | h
      · exact h
      · omega
    refine ⟨⟨?_, ?_, fun _ => hfirst, fun h => by simp at h, fun h => by simp at h,
      by simp, fun c h => by simp at h⟩, fun _ => ?_⟩
    · intro _
      show s.sq.length + to_ulong (to_int s.reads) = s.reads
      rw [to_ulong_to_int _ (by simp only [QD]; omega), hsq]; simp
    · intro h; exact absurd rfl h
    · have hn : ¬ (s.insize = 0 ∧ s.write_left = 0) := by omega
      simp only [fuel, hpc, hn, if_false]
      omega
  case leave c hpc h1 h2 hc =>
    refine ⟨⟨fun h => by simp at h, fun _ _ => p2 (by simp [hpc]) (by simp [hpc]),
      fun h => by simp at h, fun h => by simp at h, fun h => by simp at h, by simp,
      fun c h => by simp [Session.finished]⟩, fun _ => ?_⟩
    simp [fuel, hpc, h1, h2]
  case fill_stop hpc hwhy =>
    have hf := p3 (Or.inl hpc)
    obtain ⟨n, hq, hon, hn⟩ := hS.chunked
    have hnl : n = s.reads := by rw [← hf.2, hq, chunks_length]
    refine ⟨⟨fun _ => p1 (Or.inl hpc), fun _ h => absurd rfl h, fun _ => hf,
      fun h => by simp at h, fun _ => ?_, by simp, fun c h => by simp at h⟩, fun _ => ?_⟩
    · show s.insize = 0
      simp only [QD, ULONG, BS] at hwhy hon
      rcases hwhy with h | h | h | h
      · exact h
      · omega
      · rw [b1] at h; cases h
      · omega
    · simp only [fuel, hpc]
      omega
  case fill_read hpc hne hq hsq ts hts =>
    have hts0 : 0 < ts ∧ ts ≤ 10 * 1024 * 1024 ∧ ts ≤ s.insize ∧
        (s.insize ≤ 10 * 1024 * 1024 → ts = s.insize) ∧
        (10 * 1024 * 1024 < s.insize → ts = 10 * 1024 * 1024) := by
      rw [hts]; simp only [BS]; split <;> omega
    clear hts
    have hf := p3 (Or.inl hpc)
    have h1 := p1 (Or.inl hpc)
    simp only [ULONG, QD] at hq hsq
    refine ⟨⟨?_, fun h => absurd hpc h, fun _ => ⟨hf.1, ?_⟩, fun h => by simp [hpc] at h,
      fun h => by simp [hpc] at h, by simp [hpc], fun c h => by simp [hpc] at h⟩, fun _ => ?_⟩
    · intro _
      simp only [ULONG, List.length_append, List.length_singleton]
      omega
    · simp only [queued_reads_append, List.length_append, ULONG]
      simp only [queued_reads, List.filterMap_cons, Event.read_chunk, List.filterMap_nil,
        List.length_singleton]
      have := hf.2
      simp only [queued_reads] at this
      omega
    · simp only [fuel, hpc, ULONG, BS]
      omega
  case flush_none hpc he =>
    have := p1 (Or.inr hpc)
    have hsq : s.sq = [] := List.length_eq_zero.1 (by omega)
    refine ⟨⟨fun h => by simp at h, fun _ _ => hsq, fun h => by simp at h,
      fun h => by simp at h, fun _ => p5 (Or.inl hpc), by simp, fun c h => by simp at h⟩,
      fun _ => ?_⟩
    simp only [fuel, hpc]
    omega
  case flush_ok hpc he hk =>
    refine ⟨⟨fun h => by simp at h, fun _ _ => rfl, fun h => by simp at h,
      fun h => by simp at h, fun _ => p5 (Or.inl hpc), by simp, fun c h => by simp at h⟩,
      fun _ => ?_⟩
    simp only [fuel, hpc]
    omega
  case flush_fail hpc he hk => omega
  case drain_done hpc h0 =>
    have hi := p5 (Or.inr hpc)
    refine ⟨⟨fun h => by simp at h, fun _ _ => p2 (by simp [hpc]) (by simp [hpc]),
      fun h => by simp at h, fun _ => Or.inr ⟨hi, h0⟩, fun h => by simp at h, by simp,
      fun c h => by simp at h⟩, fun _ => ?_⟩
    simp only [fuel, hpc, hi, h0, and_self, if_true]
    omega
  case drain_block hpc h0 hw he =>
    exfalso
    have hi := p5 (Or.inr hpc)
    have hsq := p2 (by simp [hpc]) (by simp [hpc])
    rw [he, hsq] at a4
    simp [read_bytes] at a4
    omega
  case drain_wait_fail hpc h0 hw => omega
  case drain_neg hpc h0 hw r hr hp hres => omega
  case drain_abort hpc h0 hw l1 l2 r hr hp hres hread hsq =>
    exfalso
    have e3 := length_split _ _ _ _ hr
    simp only [QD, List.length_append] at hsq e3
    omega
  case drain_read_unsent hpc h0 hw l1 l2 r hr hp hres hread hsq hk => omega
  case drain_read hpc h0 hw l1 l2 r hr hp hres hread hsq hk =>
    have e1 := countP_split (fun r => r.read) _ _ _ _ hr
    simp only [hread, if_true, List.countP_append] at e1
    refine ⟨⟨fun h => by simp [hpc] at h, fun _ _ => rfl, fun h => by simp [hpc] at h,
      fun h => by simp [hpc] at h, fun _ => p5 (Or.inr hpc), by simp [hpc],
      fun c h => by simp [hpc] at h⟩, fun _ => ?_⟩
    simp only [fuel, hpc, ULONG]
    omega
  case drain_write hpc h0 hw l1 l2 r hr hp hres hread =>
    have e2 := countP_split (fun r => !r.read) _ _ _ _ hr
    simp only [hread, if_true, List.countP_append, Bool.not_false] at e2
    refine ⟨⟨fun h => by simp [hpc] at h, fun _ _ => p2 (by simp [hpc]) (by simp [hpc]),
      fun h => by simp [hpc] at h, fun h => by simp [hpc] at h, fun _ => p5 (Or.inr hpc),
      by simp [hpc], fun c h => by simp [hpc] at h⟩, fun _ => ?_⟩
    simp only [fuel, hpc, ULONG]
    omega

theorem fuel_zero_step (k : Answer) (s : Session) (h : fuel s = 0) : step k s = s := by
  unfold fuel at h
  unfold step
  split at h
  · split at h <;> omega
  · omega
  · omega
  · omega
  · rfl

theorem progress_run (src : File) (hN : src.size ≤ QD * BS) (ks : List Answer) :
    (∀ k ∈ ks, Benign k) →
    Progress (run ks (start src)) ∧
      fuel (run ks (start src)) ≤ fuel (start src) - ks.length := by
  induction ks using List.reverseRecOn with
  | nil => intro _; exact ⟨progress_start src, by simp [run]⟩
  | append_singleton ks k ih =>
    intro hB
    obtain ⟨hP, hf⟩ := ih (fun x hx => hB x (by simp [hx]))
    rw [run_snoc]
    have h := progress_step src k _ _ hN (sound_run src ks) (hB k (by simp)) hP
      (step_spec k _)
    refine ⟨h.1, ?_⟩
    simp only [List.length_append, List.length_singleton]
    by_cases h0 : fuel (run ks (start src)) = 0
    · rw [fuel_zero_step k _ h0]; omega
    · have := h.2 h0; omega


/-! ## Budget and accounting (C3, C10) -/

/-- C3: in a session started on an idle ring, after every step of the loop, whatever the
answers of the environment, `reads + writes` is at most `QD`. -/
theorem budget_never_exceeded (src : File) (ks : List Answer) :
    (run ks (start src)).reads + (run ks (start src)).writes ≤ QD := by
  have h := accounting_run src ks
  have hlen := length_eq_countP_add (run ks (start src)).pending
  have h1 := h.reads_eq
  have h2 := h.writes_eq
  have h3 := h.budget
  omega

/-- C10: in a session started on an idle ring, after every step of the loop, `write_left`
is `insize` plus the lengths of the chunks in the Reading phase, `reads` and `writes`
count the records in the Reading and in the Writing phase, and `insize + offset` is the
size of the source. -/
theorem accounting_invariant (src : File) (ks : List Answer) :
    (run ks (start src)).write_left
        = (run ks (start src)).insize + read_bytes (run ks (start src)).pending ∧
    (run ks (start src)).reads
        = (run ks (start src)).pending.countP (fun r => r.read) ∧
    (run ks (start src)).writes
        = (run ks (start src)).pending.countP (fun r => !r.read) ∧
    (run ks (start src)).insize + (run ks (start src)).offset = (src.size : Int) := by
  have h := accounting_run src ks
  exact ⟨h.write_left_eq, h.reads_eq, h.writes_eq, h.size_eq⟩


/-! ## Content of the destination (C1) -/

/-- C1: for every source and every order of completions, if every submission is
accepted, every read and write completes in full and the transfer loop exits, then
once the kernel has carried out the writes still outstanding, in whatever order, the
destination has the content and the size of the source; the writes queued are the
chunks of the file, each once, at the offsets and with the lengths of the reads. -/
theorem transfer_copies_source (src : File) (ks : List Answer) (order : List io_data)
    (hclean : Clean (run ks (start src)))
    (hfin : (run ks (start src)).finished)
    (horder : order.Perm (run ks (start src)).inflight) :
    (settle order (run ks (start src)).dst).content = src.content ∧
    (settle order (run ks (start src)).dst).size = src.size ∧
    (queued_writes (run ks (start src)).log).Perm (queued_reads (run ks (start src)).log) ∧
    queued_reads (run ks (start src)).log = chunks src.size (chunk_count src.size) := by
  have hS := sound_run src ks
  generalize run ks (start src) = s at *
  obtain ⟨hin0, hwl0, ⟨c, hpc⟩, -, -⟩ := hS.exited hfin
  have hD := hS.data hclean
  have hsq : s.sq = [] := hD.sq_empty (by simp [hpc]) (by simp [hpc])
  have hpend : s.pending = s.inflight := by simp [Session.pending, hsq]
  have hoff : s.offset = (src.size : Int) := by
    have := hS.acc.size_eq; omega
  have hrb : read_bytes s.pending = 0 := by
    have := hS.acc.write_left_eq; omega
  have hnr := no_reads_of_read_bytes s.pending hrb (fun r hr => (hS.shape.wf r hr).2.2.2.2)
  have hsrc := hS.shape.src_eq
  have hmain := settle_correct src (src.size : Int) order s.dst
    (fun r hr => by
      have hr2 : r ∈ s.pending := by rw [hpend]; exact horder.subset hr
      have := hS.shape.wf r hr2
      rw [hoff] at this
      exact this)
    (fun r hr j hj => by
      have hr2 : r ∈ s.pending := by rw [hpend]; exact horder.subset hr
      have := hD.buf_ok r hr2 (hnr r hr2) j hj
      rw [hsrc] at this
      exact this)
    (by have := hD.dst_size; omega)
    (fun i hi hcov => by
      have := hD.dst_ok i (by omega) (fun r hr => hcov r (by
        rw [hpend] at hr; exact horder.symm.subset hr))
      rw [hsrc] at this
      exact this)
  have hsize : (settle order s.dst).size = src.size := by
    rcases Nat.eq_zero_or_pos src.size with h0 | hpos
    · have := hmain.1; omega
    · have h1 := (hmain.2 (src.size - 1) (by omega)).2
      have := hmain.1
      omega
  obtain ⟨n, hq, hon, hn⟩ := hS.chunked
  have hcnt : n = chunk_count src.size := by
    apply chunk_count_eq _ _ _ hn
    have : ((min (n * BS) src.size : Nat) : Int) = (src.size : Int) := by rw [← hon, hoff]
    omega
  refine ⟨content_eq _ _ hsize (fun i hi => (hmain.2 i (by omega)).1), hsize, ?_, ?_⟩
  · have := hS.shape.paired
    rw [reading_chunks_of_no_reads _ hnr, List.append_nil] at this
    exact this
  · rw [hq, hcnt]


/-- The copy of the 25 MiB source, with the chunks read in the order 2, 1, 0 and the two
writes left on the ring carried out last one first. -/
theorem transfer_copies_source_witness :
    Clean (run answers25 (start file25)) ∧ (run answers25 (start file25)).finished ∧
    (run answers25 (start file25)).inflight.length = 2 ∧
    (settle (run answers25 (start file25)).inflight.reverse
      (run answers25 (start file25)).dst).content = file25.content ∧
    (settle (run answers25 (start file25)).inflight.reverse
      (run answers25 (start file25)).dst).size = 26214400 :=
  have h := transfer_copies_source file25 answers25
    (run answers25 (start file25)).inflight.reverse (by decide) (by decide)
    (List.reverse_perm _)
  ⟨by decide, by decide, by decide, h.1, h.2.1⟩


/-! ## Chunks scheduled (C4) -/

/-- C4: the reads queued by a session are, in order, the chunks `k * BS`,
`min BS (N - k * BS)` of the source, never more than `ceil (N / BS)` of them; when the
loop exits they are exactly the `ceil (N / BS)` chunks and their lengths add up to `N`. -/
theorem chunks_scheduled (src : File) (ks : List Answer) :
    (∃ n, n ≤ chunk_count src.size ∧
      queued_reads (run ks (start src)).log
        = (List.range n).map
            (fun k => (((k * BS : Nat) : Int), min BS (src.size - k * BS)))) ∧
    ((run ks (start src)).finished →
      queued_reads (run ks (start src)).log = chunks src.size (chunk_count src.size) ∧
      (queued_reads (run ks (start src)).log).length = (src.size + BS - 1) / BS ∧
      ((queued_reads (run ks (start src)).log).map (fun c => c.2)).sum = src.size) := by
  have hS := sound_run src ks
  generalize run ks (start src) = s at *
  obtain ⟨n, hq, hon, hn⟩ := hS.chunked
  constructor
  · refine ⟨n, ?_, hq⟩
    unfold chunk_count
    simp only [BS] at *
    rcases hn with hn | hn <;> omega
  · intro hfin
    obtain ⟨hin0, -, -, -, -⟩ := hS.exited hfin
    have hoff : s.offset = (src.size : Int) := by
      have := hS.acc.size_eq; omega
    have hmin : min (n * BS) src.size = src.size := by
      have : ((min (n * BS) src.size : Nat) : Int) = (src.size : Int) := by rw [← hon, hoff]
      omega
    have hcnt : n = chunk_count src.size := chunk_count_eq _ _ (by omega) hn
    refine ⟨by rw [hq, hcnt], ?_, ?_⟩
    · rw [hq, chunks_length, hcnt]; rfl
    · rw [hq, chunks_sum, hmin]

/-- The chunks of the 25 MiB source: three, of 10, 10 and 5 MiB. -/
theorem chunks_scheduled_witness :
    (run answers25 (start file25)).finished ∧
    queued_reads (run answers25 (start file25)).log
      = [(0, 10485760), (10485760, 10485760), (20971520, 5242880)] ∧
    (queued_reads (run answers25 (start file25)).log).length = 3 ∧
    ((queued_reads (run answers25 (start file25)).log).map (fun c => c.2)).sum = 26214400 :=
  have h := (chunks_scheduled file25 answers25).2 (by decide)
  ⟨by decide, h.1.trans (by decide), h.2.1.trans (by decide), h.2.2⟩


/-! ## Exit with a write outstanding, and the wait with nothing outstanding (C5, C2) -/

/-- Whenever the loop of `move_file` exits on a source that is not empty, whatever the
order of the completions, a write is still on the ring and its record is not freed. -/
theorem write_outstanding_at_exit (src : File) (ks : List Answer) (hpos : 0 < src.size)
    (hfin : (run ks (start src)).finished) :
    (run ks (start src)).outfd_open = false ∧ 1 ≤ (run ks (start src)).writes ∧
    1 ≤ (run ks (start src)).live ∧
    ∃ r ∈ (run ks (start src)).pending, r.read = false := by
  have hS := sound_run src ks
  have hW := write_left_run src ks
  generalize run ks (start src) = s at *
  obtain ⟨-, hwl0, -, -, hout⟩ := hS.exited hfin
  have h1 := hW hpos hwl0
  have h2 := hS.acc.writes_eq
  have h3 := hS.acc.live_eq
  have hlen := length_eq_countP_add s.pending
  refine ⟨hout, h1, by omega, ?_⟩
  have hc : 0 < s.pending.countP (fun r => !r.read) := by omega
  obtain ⟨r, hr, hrd⟩ := List.countP_pos_iff.1 hc
  exact ⟨r, hr, by simpa using hrd⟩

/-- On a source of more than `QD * BS` bytes the loop of `move_file` never exits,
whatever the answers of the environment: `write_left` never reaches zero. -/
theorem never_finishes_above_budget (src : File) (ks : List Answer)
    (hbig : QD * BS < src.size) :
    ¬ (run ks (start src)).finished ∧ (run ks (start src)).write_left ≠ 0 ∧
    ∀ c, (run ks (start src)).pc = Pc.returned c → c = 1 := by
  have hS := sound_run src ks
  have hF := first_turn_run src ks
  have hR := returned_run src ks
  generalize run ks (start src) = s at *
  have h1 := hF.bound
  rw [budget_bytes] at h1
  have h2 := hS.acc.size_eq
  have h3 := hS.acc.write_left_eq
  have h4 := read_bytes_nonneg s.pending
  simp only [QD, BS] at hbig
  have hwl : s.write_left ≠ 0 := by omega
  refine ⟨fun hfin => hwl (hS.exited hfin).2.1, hwl, ?_⟩
  intro c hc
  rcases hR c hc with h | h
  · exact h
  · exact absurd (hS.exited h).2.1 hwl

/-- On a source of at most `QD * BS` bytes, when no call fails and every completion
carries a non-negative result, the session stops after at most `5 + 3 * ceil (N / BS)`
steps, whatever the order of the completions: the loop has exited with `insize` and
`write_left` both zero and `move_file` has returned. -/
theorem completes_within_budget (src : File) (ks : List Answer)
    (hN : src.size ≤ QD * BS) (hB : ∀ k ∈ ks, Benign k)
    (hlen : 5 + 3 * chunk_count src.size ≤ ks.length) :
    (run ks (start src)).finished ∧ (run ks (start src)).insize = 0 ∧
    (run ks (start src)).write_left = 0 ∧ ∃ c, (run ks (start src)).pc = Pc.returned c := by
  obtain ⟨hP, hf⟩ := progress_run src hN ks hB
  have hS := sound_run src ks
  have h0 : fuel (start src) ≤ 5 + 3 * chunk_count src.size := by
    unfold fuel chunk_count
    simp only [start, Int.toNat_ofNat]
    split <;> omega
  have hz : fuel (run ks (start src)) = 0 := by omega
  generalize run ks (start src) = s at *
  have hpc : ∃ c, s.pc = Pc.returned c := by
    unfold fuel at hz
    split at hz
    · split at hz <;> omega
    · omega
    · omega
    · omega
    · rename_i h1 h2 h3 h4
      cases hp : s.pc with
      | returned c => exact ⟨c, rfl⟩
      | loop_head => exact absurd hp h1
      | fill => exact absurd hp h2
      | flush => exact absurd hp h3
      | drain => exact absurd hp h4
      | blocked => exact absurd hp hP.alive.1
      | aborted => exact absurd hp hP.alive.2
  obtain ⟨c, hc⟩ := hpc
  have hfin := hP.fin c hc
  obtain ⟨e1, e2, -, -, -⟩ := hS.exited hfin
  exact ⟨hfin, e1, e2, ⟨c, hc⟩⟩


/-- C5, at a source of one byte: when `move_file` has closed both descriptors and
returned 0, the write of the only chunk is still outstanding (`writes = 1`, one write
on the ring, no write completion was observed) and its record is not freed. -/
theorem descriptors_closed_before_last_write :
    (run answers1 (start file1)).pc = Pc.returned 0 ∧
    (run answers1 (start file1)).infd_open = false ∧
    (run answers1 (start file1)).outfd_open = false ∧
    (run answers1 (start file1)).reads = 0 ∧
    (run answers1 (start file1)).writes = 1 ∧
    ((run answers1 (start file1)).inflight.map (fun r => (r.read, r.offset, r.iov_len)))
      = [(false, 0, 1)] ∧
    (run answers1 (start file1)).live = 1 ∧
    (run answers1 (start file1)).log =
      [Event.prep_read 0 1, Event.submit 1, Event.cqe true 0 1 1, Event.prep_write 0 1,
       Event.submit 1, Event.close_in, Event.close_out, Event.unlink] := by
  decide

/-- C2, at a source of `QD * BS + 1` bytes: after the eight chunks the budget allows
have been read and written, every completion in full, the loop waits for a completion
with nothing outstanding (`reads = writes = 0`) and one byte left to read and to
write. -/
theorem session_blocks_above_budget :
    (run answers81 (start file81)).pc = Pc.blocked ∧
    (run answers81 (start file81)).reads = 0 ∧
    (run answers81 (start file81)).writes = 0 ∧
    (run answers81 (start file81)).inflight.length = 0 ∧
    (run answers81 (start file81)).sq.length = 0 ∧
    (run answers81 (start file81)).insize = 1 ∧
    (run answers81 (start file81)).write_left = 1 ∧
    Clean (run answers81 (start file81)) := by
  decide


/-! ## A failed completion fails the session (C8) -/

/-- C8: if a completion observed during the transfer carries a negative result, the
session has failed at once: the log ends with that completion followed by the two
`close` calls and nothing else (no read or write queued, no retry, no `unlink`),
`move_file` has returned 1, and no later step changes anything. -/
theorem failed_completion_fails_session (src : File) (ks : List Answer)
    (hneg : ∃ e ∈ (run ks (start src)).log, e.failed = true) :
    (run ks (start src)).pc = Pc.returned 1 ∧
    (run ks (start src)).infd_open = false ∧ (run ks (start src)).outfd_open = false ∧
    Event.unlink ∉ (run ks (start src)).log ∧
    (∃ pre e, e.failed = true ∧ (∀ x ∈ pre, x.failed = false) ∧
      (run ks (start src)).log = pre ++ [e, Event.close_in, Event.close_out]) ∧
    ∀ k, step k (run ks (start src)) = run ks (start src) := by
  have h := aborted_run src ks hneg
  exact ⟨h.1, h.2.1, h.2.2.1, h.2.2.2.1, h.2.2.2.2, fun k => step_returned k _ 1 h.1⟩

/-- A one-byte source whose read fails with `-5`: the two descriptors are closed, 1 is
returned and the source is kept. -/
theorem failed_completion_fails_session_witness :
    (run answers_eio (start file1)).log
      = [Event.prep_read 0 1, Event.submit 1, Event.cqe true 0 1 (-5),
         Event.close_in, Event.close_out] ∧
    (run answers_eio (start file1)).pc = Pc.returned 1 ∧
    (run answers_eio (start file1)).infd_open = false ∧
    (run answers_eio (start file1)).outfd_open = false ∧
    Event.unlink ∉ (run answers_eio (start file1)).log :=
  have h := failed_completion_fails_session file1 answers_eio
    ⟨Event.cqe true 0 1 (-5), by decide, by decide⟩
  ⟨by decide, h.1, h.2.1, h.2.2.1, h.2.2.2.1⟩


/-! ## The completion step (C9) -/

/-- C9: in a session started on an idle ring, handling a completion with a non-negative
result `res` (whatever its size) does this. For a record in the Reading phase: one
write is queued with the offset and the length of the read, `reads` goes down by one,
`writes` up by one, `write_left` down by the length of the chunk, `insize` is unchanged
and the record is kept. For a record in the Writing phase: the record is freed and
`writes` goes down by one, `reads`, `write_left` and `insize` are unchanged. The counters
after the step are the same for every other non-negative result. Every write in the log
follows a completion without error of the read of the same chunk. -/
theorem completion_depends_on_phase_only (src : File) (ks : List Answer) (k : Answer)
    (r : io_data)
    (hpc : (run ks (start src)).pc = Pc.drain)
    (hwl : (run ks (start src)).write_left ≠ 0)
    (hwait : 0 ≤ k.wait_ret)
    (hpick : (run ks (start src)).inflight.get?
      (k.pick % (run ks (start src)).inflight.length) = some r)
    (hres : 0 ≤ k.res) :
    Handled k r (run ks (start src)) (step k (run ks (start src))) ∧
    (∀ res : Int, 0 ≤ res →
      (step { k with res := res } (run ks (start src))).reads
          = (step k (run ks (start src))).reads ∧
      (step { k with res := res } (run ks (start src))).writes
          = (step k (run ks (start src))).writes ∧
      (step { k with res := res } (run ks (start src))).write_left
          = (step k (run ks (start src))).write_left ∧
      (step { k with res := res } (run ks (start src))).insize
          = (step k (run ks (start src))).insize ∧
      (step { k with res := res } (run ks (start src))).live
          = (step k (run ks (start src))).live ∧
      queued_writes (step { k with res := res } (run ks (start src))).log
          = queued_writes (step k (run ks (start src))).log) ∧
    ∀ pre post o l, (run ks (start src)).log = pre ++ Event.prep_write o l :: post →
      ∃ res, 0 ≤ res ∧ Event.cqe true o l res ∈ pre := by
  have hS := sound_run src ks
  have hR := read_first_run src ks
  generalize run ks (start src) = s at *
  have h1 := handled_of_step src k r s _ hS hpc hwl hwait hpick hres (step_spec k s)
  refine ⟨h1, ?_, hR⟩
  intro res hres2
  have h2 := handled_of_step src { k with res := res } r s _ hS hpc hwl hwait hpick hres2
    (step_spec _ s)
  cases hrd : r.read
  · obtain ⟨a1, a2, a3, a4, -, a6, -, a8, -⟩ := h1.2 hrd
    obtain ⟨b1, b2, b3, b4, -, b6, -, b8, -⟩ := h2.2 hrd
    refine ⟨by omega, by omega, by omega, by omega, by omega, ?_⟩
    rw [a8, b8]
    simp [queued_writes, Event.write_chunk]
  · obtain ⟨a1, a2, a3, a4, -, a6, -, ⟨ra, a8⟩, -⟩ := h1.1 hrd
    obtain ⟨b1, b2, b3, b4, -, b6, -, ⟨rb, b8⟩, -⟩ := h2.1 hrd
    refine ⟨by omega, by omega, by omega, by omega, by omega, ?_⟩
    rw [a8, b8]
    simp [queued_writes, Event.write_chunk]

/-- The 25 MiB source when the read of its last chunk completes with 100 bytes only: the
write is queued for the whole chunk and the counters move by the whole chunk. -/
theorem completion_depends_on_phase_only_witness :
    (run (List.replicate 6 Answer.calm) (start file25)).reads = 3 ∧
    (run (List.replicate 6 Answer.calm) (start file25)).write_left = 26214400 ∧
    (step (Answer.deliver 2 100) (run (List.replicate 6 Answer.calm) (start file25))).reads
      = 2 ∧
    (step (Answer.deliver 2 100) (run (List.replicate 6 Answer.calm) (start file25))).writes
      = 1 ∧
    (step (Answer.deliver 2 100)
      (run (List.replicate 6 Answer.calm) (start file25))).write_left = 20971520 ∧
    Handled (Answer.deliver 2 100) last_read25
      (run (List.replicate 6 Answer.calm) (start file25))
      (step (Answer.deliver 2 100) (run (List.replicate 6 Answer.calm) (start file25))) :=
  have h := completion_depends_on_phase_only file25 (List.replicate 6 Answer.calm)
    (Answer.deliver 2 100) last_read25 (by decide) (by decide) (by decide) rfl (by decide)
  ⟨by decide, by decide, by decide, by decide, by decide, h.1⟩


/-! ## `sync_file`: skip and full transfer (C6, C7) -/

/-- C6: if the destination exists, has the size of the source and a modification time
not older than the source's, `sync_file` returns 0 without opening either file: the
destination is left as it is and nothing is read, written or queued. -/
theorem sync_skips_up_to_date (o : Opening) (ks : List (Answer × Answer)) (sn dn : Node)
    (hsize : dn.file.size = sn.file.size) (hmtime : sn.mtime ≤ dn.mtime) :
    (sync_file o ks (some sn) (some dn)).ret = some 0 ∧
    (sync_file o ks (some sn) (some dn)).dst = some dn.file ∧
    (sync_file o ks (some sn) (some dn)).log = [] ∧
    (sync_file o ks (some sn) (some dn)).outstanding = 0 ∧
    (sync_file o ks (some sn) (some dn)).live = 0 := by
  unfold sync_file up_to_date
  simp [hsize, hmtime]

/-- Two files of one byte with the same modification time and different content: the
destination is left as it is. -/
theorem sync_skips_up_to_date_witness :
    (sync_file Opening.fine sync_answers25 (some ⟨file1, 100⟩) (some ⟨other1, 100⟩)).ret
      = some 0 ∧
    (sync_file Opening.fine sync_answers25 (some ⟨file1, 100⟩) (some ⟨other1, 100⟩)).dst
      = some other1 ∧
    (sync_file Opening.fine sync_answers25 (some ⟨file1, 100⟩) (some ⟨other1, 100⟩)).log
      = [] :=
  have h := sync_skips_up_to_date Opening.fine sync_answers25 ⟨file1, 100⟩ ⟨other1, 100⟩
    rfl (by decide)
  ⟨h.1, h.2.1, h.2.2.1⟩


/-- C7: for a source of `N` bytes and an existing destination of another size, whatever
its modification time, `sync_file` does not skip. When the files open, nothing fails
and every operation completes in full, it returns 0 after opening (and truncating) the
destination and going through the `ceil (N / BS)` chunks in order, each read at
`k * BS` of length `min BS (N - k * BS)` followed by its write at the same offset and
of the same length, awaited before the next chunk; the destination then has the
content and the size of the source and nothing is left on the ring. -/
theorem sync_copies_when_sizes_differ (o : Opening) (ks : List (Answer × Answer))
    (sn dn : Node)
    (hdiff : dn.file.size ≠ sn.file.size)
    (hopen : o.open_in_ok = true ∧ o.open_out_ok = true ∧ o.size_ok = true)
    (hcalm : ∀ k ∈ ks, k.1.malloc_ok = true ∧ 0 ≤ k.1.wait_ret ∧ 0 ≤ k.2.wait_ret)
    (hclean : ∀ e ∈ (sync_file o ks (some sn) (some dn)).log, e.clean = true)
    (hlen : chunk_count sn.file.size < ks.length) :
    (sync_file o ks (some sn) (some dn)).ret = some 0 ∧
    (sync_file o ks (some sn) (some dn)).dst.map File.content = some sn.file.content ∧
    (sync_file o ks (some sn) (some dn)).dst.map File.size = some sn.file.size ∧
    (sync_file o ks (some sn) (some dn)).log
      = [Event.open_in, Event.open_out]
        ++ ((chunks sn.file.size (chunk_count sn.file.size)).map turn_events).flatten
        ++ [Event.close_in, Event.close_out] ∧
    (sync_file o ks (some sn) (some dn)).outstanding = 0 ∧
    (sync_file o ks (some sn) (some dn)).live = 0 := by
  have hup : up_to_date sn (some dn) = false := by
    unfold up_to_date
    have : ¬ ((sn.file.size : Int) = (dn.file.size : Int)) := by omega
    simp [this]
  have hfile : ∀ t, t = sync_run ks { start sn.file with log := [Event.open_in, Event.open_out] } →
      sync_file o ks (some sn) (some dn) =
      { ret := t.pc.code, dst := some t.dst, log := t.log,
        outstanding := t.inflight.length + t.sq.length, live := t.live } := by
    intro t ht
    subst ht
    unfold sync_file
    simp [hup, hopen.1, hopen.2.1, hopen.2.2]
  rw [hfile _ rfl] at hclean ⊢
  have hD := sync_run_done sn.file ks 0 _ (synced_start sn.file) hcalm hclean (by omega)
  refine ⟨?_, ?_, ?_, ?_, ?_, ?_⟩
  · show (sync_run ks _).pc.code = some 0
    rw [hD.ret]; rfl
  · show some (File.content _) = some sn.file.content
    rw [content_eq _ _ hD.size_eq hD.bytes]
  · show some (File.size _) = some sn.file.size
    rw [hD.size_eq]
  · show (sync_run ks _).log = _
    rw [hD.log_eq]; rfl
  · show (sync_run ks _).inflight.length + (sync_run ks _).sq.length = 0
    rw [hD.idle.1, hD.idle.2]; rfl
  · exact hD.live_eq


/-- The 25 MiB source and a newer destination of one byte: three read-then-write pairs. -/
theorem sync_copies_when_sizes_differ_witness :
    (sync_file Opening.fine sync_answers25 (some ⟨file25, 100⟩) (some ⟨other1, 200⟩)).ret
      = some 0 ∧
    (sync_file Opening.fine sync_answers25 (some ⟨file25, 100⟩) (some ⟨other1, 200⟩)).dst.map
      File.content = some file25.content ∧
    (sync_file Opening.fine sync_answers25 (some ⟨file25, 100⟩) (some ⟨other1, 200⟩)).dst.map
      File.size = some 26214400 ∧
    (sync_file Opening.fine sync_answers25 (some ⟨file25, 100⟩) (some ⟨other1, 200⟩)).log
      = [Event.open_in, Event.open_out,
         Event.prep_read 0 10485760, Event.submit 1, Event.cqe true 0 10485760 10485760,
         Event.prep_write 0 10485760, Event.submit 1, Event.cqe false 0 10485760 10485760,
         Event.free 0,
         Event.prep_read 10485760 10485760, Event.submit 1,
         Event.cqe true 10485760 10485760 10485760,
         Event.prep_write 10485760 10485760, Event.submit 1,
         Event.cqe false 10485760 10485760 10485760, Event.free 10485760,
         Event.prep_read 20971520 5242880, Event.submit 1,
         Event.cqe true 20971520 5242880 5242880,
         Event.prep_write 20971520 5242880, Event.submit 1,
         Event.cqe false 20971520 5242880 5242880, Event.free 20971520,
         Event.close_in, Event.close_out] :=
  have h := sync_copies_when_sizes_differ Opening.fine sync_answers25 ⟨file25, 100⟩
    ⟨other1, 200⟩ (by decide) ⟨rfl, rfl, rfl⟩ (by decide) (by decide) (by decide)
  ⟨h.1, h.2.1, h.2.2.1, h.2.2.2.1.trans (by decide)⟩


end IoUring
